import Mathlib

/-!
Verification development for the FISCO-BCOS in-memory transaction pool
(`bcos-txpool/txpool/storage/MemoryStorage.cpp`).

The pool state and its operations are embedded as pure Lean functions over an
association list keyed by transaction hash.  Locks are irrelevant in this
sequential embedding; the external collaborators (the validator's `verify` and
`submittedToChain`, the nonce checkers and the notify channel) are passed in as
parameters or modelled by their observable effect on the pool state.
-/

namespace Txpool

/-- 32-byte content hash, abstracted to `Nat`; `0` stands for the empty
`HashType()`. -/
abbrev Hash := Nat

/-- Opaque nonce string. -/
abbrev Nonce := String

/-- Peer node identifier. -/
abbrev NodeId := Nat

/-- The wire-visible transaction status taxonomy (`protocol::TransactionStatus`),
restricted to the values the pool itself produces or branches on. -/
inductive TransactionStatus where
  | None
  | AlreadyInTxPool
  | TxPoolIsFull
  | NonceCheckFail
  | BlockLimitCheckFail
  | TransactionPoolTimeout
  | Malform
  deriving DecidableEq, Repr

/-- A pooled transaction (`protocol::Transaction`) restricted to the fields the
pool reads or writes.  `hasSubmitCallback` models the consume-once
`submitCallback` slot (`true` while a callback is installed). -/
structure Transaction where
  hash : Hash
  nonce : Nonce
  sender : Nat
  toAddr : Nat
  importTime : Nat
  sealed : Bool
  batchId : Int
  batchHash : Hash
  synced : Bool
  knownNodes : List NodeId
  hasSubmitCallback : Bool
  systemTx : Bool
  txAttribute : Nat
  invalid : Bool
  deriving DecidableEq, Repr

/-- `protocol::TransactionMetaData` as emitted by `batchFetchTxs`. -/
structure TransactionMetaData where
  hash : Hash
  toAddr : Nat
  txAttribute : Nat
  deriving DecidableEq, Repr

/-- `protocol::TransactionSubmitResult` restricted to the fields `batchRemove`
reads: the transaction hash and the (possibly empty) nonce. -/
structure TxSubmitResult where
  txHash : Hash
  nonce : Nonce
  deriving DecidableEq, Repr

/-- The `MemoryStorage` state.  `txsTable` is `m_txsTable` as an association
list in iteration order; `hasNotifier` records whether an
`m_unsealedTxsNotifier` is registered (the notify path returns early when it is
not). -/
structure MemoryStorage where
  txsTable : List Transaction
  invalidTxs : List Hash
  invalidNonces : List Nonce
  missedTxs : List Hash
  sealedTxsSize : Nat
  blockNumber : Int
  blockNumberUpdatedTime : Nat
  poolLimit : Nat
  txsExpirationTime : Nat
  hasNotifier : Bool
  deriving DecidableEq, Repr

/-- Insert into a set represented as a duplicate-free list
(`tbb::concurrent_unordered_set::insert`). -/
def setInsert {α : Type} [DecidableEq α] (a : α) (l : List α) : List α :=
  if a ∈ l then l else l ++ [a]

/-- `m_txsTable.find(h)`: first entry with the given hash. -/
def findFirst : List Transaction → Hash → Option Transaction
  | [], _ => none
  | t :: ts, h => if t.hash = h then some t else findFirst ts h

/-- `m_txsTable.unsafe_erase(it)`: drop the first entry with the given hash. -/
def eraseFirst : List Transaction → Hash → List Transaction
  | [], _ => []
  | t :: ts, h => if t.hash = h then ts else t :: eraseFirst ts h

/-- Mutate the first entry with the given hash in place (the C++ code mutates
the shared `Transaction` object found in the table). -/
def updateFirst (l : List Transaction) (h : Hash) (f : Transaction → Transaction) :
    List Transaction :=
  match l with
  | [] => []
  | t :: ts => if t.hash = h then f t :: ts else t :: updateFirst ts h f

/-- Number of sealed transactions in a table. -/
def sealedCount (l : List Transaction) : Nat :=
  (l.filter (fun t => t.sealed)).length

/-- Invariant I2: the incrementally maintained counter agrees with the table. -/
def sealedInvariant (s : MemoryStorage) : Prop :=
  s.sealedTxsSize = sealedCount s.txsTable

/-- Distinct table keys (invariant I1). -/
def keysUnique (l : List Transaction) : Prop :=
  (l.map (fun t => t.hash)).Nodup

namespace MemoryStorage

/-- `unSealedTxsSizeWithoutLock`: lazily repairs counter drift (clamps
`sealedTxsSize` to the table size) and returns the unsealed count. -/
def unSealedTxsSizeWithoutLock (s : MemoryStorage) : MemoryStorage × Nat :=
  if s.txsTable.length < s.sealedTxsSize then
    ({ s with sealedTxsSize := s.txsTable.length }, 0)
  else
    (s, s.txsTable.length - s.sealedTxsSize)

/-- `notifyUnsealedTxsSize`: returns early when no notifier is registered;
otherwise runs `unSealedTxsSizeWithoutLock` (whose lazy repair is its only
effect on the pool state) and dispatches the count to the channel. -/
def notifyUnsealedTxsSize (s : MemoryStorage) : MemoryStorage :=
  if s.hasNotifier then (unSealedTxsSizeWithoutLock s).1 else s

/-- `txpoolStorageCheck`: reject a hash already in the table. -/
def txpoolStorageCheck (s : MemoryStorage) (tx : Transaction) : TransactionStatus :=
  match findFirst s.txsTable tx.hash with
  | some _ => TransactionStatus.AlreadyInTxPool
  | none => TransactionStatus.None

/-- `insertWithoutLock`: emplace into the table; on success signal `m_onReady`
(external) and notify the unsealed count. -/
def insertWithoutLock (s : MemoryStorage) (tx : Transaction) :
    TransactionStatus × MemoryStorage :=
  match findFirst s.txsTable tx.hash with
  | some _ => (TransactionStatus.AlreadyInTxPool, s)
  | none =>
    (TransactionStatus.None, notifyUnsealedTxsSize { s with txsTable := s.txsTable ++ [tx] })

/-- `removeWithoutLock`: erase the entry, decrementing `m_sealedTxsSize` if it
was sealed; return the owning handle. -/
def removeWithoutLock (s : MemoryStorage) (h : Hash) :
    Option Transaction × MemoryStorage :=
  match findFirst s.txsTable h with
  | none => (none, s)
  | some tx =>
    (some tx,
      { s with
        txsTable := eraseFirst s.txsTable h
        sealedTxsSize := if tx.sealed then s.sealedTxsSize - 1 else s.sealedTxsSize })

/-- `verifyAndSubmitTransaction`; `verify` is the external validator.
`hasCallback` models a non-null `txSubmitCallback` argument. -/
def verifyAndSubmitTransaction (verify : Transaction → TransactionStatus)
    (s : MemoryStorage) (tx : Transaction) (hasCallback checkPoolLimit : Bool) :
    TransactionStatus × MemoryStorage :=
  let check := txpoolStorageCheck s tx
  if check ≠ TransactionStatus.None then (check, s)
  else if checkPoolLimit = true ∧ s.poolLimit ≤ s.txsTable.length then
    (TransactionStatus.TxPoolIsFull, s)
  else
    match verify tx with
    | TransactionStatus.None =>
      insertWithoutLock s
        (if hasCallback then { tx with hasSubmitCallback := true } else tx)
    | st => (st, s)

/-- `batchImportTxs`: bulk import from P2P; skips the pool-limit check and
installs no callback. -/
def batchImportTxs (verify : Transaction → TransactionStatus)
    (s : MemoryStorage) (txs : List Transaction) : MemoryStorage :=
  let s1 := txs.foldl
    (fun st tx =>
      if tx.invalid then st
      else (verifyAndSubmitTransaction verify st tx false false).2)
    s
  notifyUnsealedTxsSize s1

/-- `enforceSubmitTransaction` (consensus path); `stc` is the result of the
external `txValidator()->submittedToChain(_tx)` call. -/
def enforceSubmitTransaction (stc : TransactionStatus) (s : MemoryStorage)
    (tx : Transaction) : TransactionStatus × MemoryStorage :=
  if stc = TransactionStatus.NonceCheckFail then (TransactionStatus.NonceCheckFail, s)
  else
    match findFirst s.txsTable tx.hash with
    | some t =>
      if ¬t.sealed ∨ t.batchHash = 0 then
        let s1 := if t.sealed then s else { s with sealedTxsSize := s.sealedTxsSize + 1 }
        (TransactionStatus.None,
          { s1 with
            txsTable := updateFirst s1.txsTable tx.hash
              (fun u => { u with sealed := true, batchId := tx.batchId, batchHash := tx.batchHash }) })
      else if t.batchId = tx.batchId ∧ t.batchHash = tx.batchHash then
        (TransactionStatus.None, s)
      else (TransactionStatus.AlreadyInTxPool, s)
    | none =>
      let r := insertWithoutLock s tx
      if r.1 ≠ TransactionStatus.None then
        -- `insertWithoutLock` raced (dead in this sequential embedding):
        -- re-find and seal without re-inserting
        match findFirst r.2.txsTable tx.hash with
        | some u =>
          if u.sealed then (TransactionStatus.None, r.2)
          else
            (TransactionStatus.None,
              { r.2 with
                sealedTxsSize := r.2.sealedTxsSize + 1
                txsTable := updateFirst r.2.txsTable tx.hash (fun v => { v with sealed := true }) })
        | none => (TransactionStatus.None, r.2)
      else
        (TransactionStatus.None,
          { r.2 with
            sealedTxsSize := r.2.sealedTxsSize + 1
            txsTable := updateFirst r.2.txsTable tx.hash (fun v => { v with sealed := true }) })

/-- One step of `batchMarkTxsWithoutLock` for a single hash. -/
def markOne (b : Int) (bh : Hash) (flag : Bool) (s : MemoryStorage) (h : Hash) :
    MemoryStorage :=
  match findFirst s.txsTable h with
  | none => s
  | some tx =>
    if (tx.batchId ≠ b ∨ tx.batchHash ≠ bh) ∧ tx.sealed = true ∧ flag = false then s
    else
      let s1 :=
        if flag = true ∧ tx.sealed = false then { s with sealedTxsSize := s.sealedTxsSize + 1 }
        else if flag = false ∧ tx.sealed = true then { s with sealedTxsSize := s.sealedTxsSize - 1 }
        else s
      { s1 with
        txsTable := updateFirst s1.txsTable h
          (fun u =>
            if flag then { u with sealed := true, batchId := b, batchHash := bh }
            else { u with sealed := false }) }

/-- The hash loop of `batchMarkTxsWithoutLock`. -/
def batchMarkLoop (b : Int) (bh : Hash) (flag : Bool) :
    MemoryStorage → List Hash → MemoryStorage
  | s, [] => s
  | s, h :: rest => batchMarkLoop b bh flag (markOne b bh flag s h) rest

/-- `batchMarkTxsWithoutLock`: apply the flag to every hash, then notify. -/
def batchMarkTxsWithoutLock (s : MemoryStorage) (hashes : List Hash) (b : Int)
    (bh : Hash) (flag : Bool) : MemoryStorage :=
  notifyUnsealedTxsSize (batchMarkLoop b bh flag s hashes)

/-- `batchMarkTxs`: the public wrapper only chooses a lock, which is immaterial
here. -/
def batchMarkTxs (s : MemoryStorage) (hashes : List Hash) (b : Int) (bh : Hash)
    (flag : Bool) : MemoryStorage :=
  batchMarkTxsWithoutLock s hashes b bh flag

/-- `batchMarkAllTxs`: apply the flag to the whole table; unsealing also resets
`batchId`/`batchHash`; the counter is set to the table size or zero. -/
def batchMarkAllTxs (s : MemoryStorage) (flag : Bool) : MemoryStorage :=
  let tbl := s.txsTable.map
    (fun t =>
      if flag then { t with sealed := true }
      else { t with sealed := false, batchId := -1, batchHash := 0 })
  notifyUnsealedTxsSize
    { s with txsTable := tbl, sealedTxsSize := if flag then tbl.length else 0 }

/-- `clear`: empties the indexes.  Note that `m_sealedTxsSize` is not reset
here; only the lazy repair inside `notifyUnsealedTxsSize` can bring it back in
line, and that runs only when a notifier is registered. -/
def clear (s : MemoryStorage) : MemoryStorage :=
  notifyUnsealedTxsSize
    { s with txsTable := [], invalidTxs := [], invalidNonces := [], missedTxs := [] }

/-- The removal loop of `removeInvalidTxs`: each staged hash goes through
`removeSubmittedTxWithoutLock` (remove, then fire the timeout callback on the
removed handle, which does not touch the pool state). -/
def removeInvalidLoop : MemoryStorage → List Hash → MemoryStorage
  | s, [] => s
  | s, h :: rest => removeInvalidLoop (removeWithoutLock s h).2 rest

/-- `removeInvalidTxs`: drain the staged invalid transactions and nonces. -/
def removeInvalidTxs (s : MemoryStorage) : MemoryStorage :=
  if s.invalidTxs = [] then s
  else
    let s1 := removeInvalidLoop s s.invalidTxs
    let s2 := notifyUnsealedTxsSize s1
    { s2 with invalidTxs := [], invalidNonces := [] }

end MemoryStorage

/-- The accumulator threaded through the `batchFetchTxs` traversal: staged
invalid hashes/nonces, the sealed counter, and the two output meta lists. -/
structure FetchAcc where
  invalidTxs : List Hash
  invalidNonces : List Nonce
  sealedTxsSize : Nat
  txsList : List TransactionMetaData
  sysTxsList : List TransactionMetaData
  deriving DecidableEq, Repr

/-- Stage a transaction on `m_invalidTxs`/`m_invalidNonces`. -/
def stageInvalid (acc : FetchAcc) (t : Transaction) : FetchAcc :=
  { acc with
    invalidTxs := setInsert t.hash acc.invalidTxs
    invalidNonces := setInsert t.nonce acc.invalidNonces }

/-- `transaction->takeSubmitCallback()` on a nonce-failed candidate. -/
def consumeCallback (t : Transaction) : Transaction :=
  { t with hasSubmitCallback := false }

/-- Emit a `TransactionMetaData` into the system or user list and bump the
sealed counter if the candidate was unsealed. -/
def emitMeta (acc : FetchAcc) (t : Transaction) : FetchAcc :=
  let meta : TransactionMetaData :=
    { hash := t.hash, toAddr := t.toAddr, txAttribute := t.txAttribute }
  let acc1 :=
    if t.systemTx then { acc with sysTxsList := acc.sysTxsList ++ [meta] }
    else { acc with txsList := acc.txsList ++ [meta] }
  if t.sealed then acc1 else { acc1 with sealedTxsSize := acc1.sealedTxsSize + 1 }

/-- `tx->setSealed(true); tx->setBatchId(-1); tx->setBatchHash(HashType())`. -/
def sealForFetch (t : Transaction) : Transaction :=
  { t with sealed := true, batchId := -1, batchHash := 0 }

/-- The table traversal of `batchFetchTxs`.  `stc` is the external
`submittedToChain` re-check; `now` is `utcTime()`.  Returns the table after the
traversal (candidate mutations applied in place) and the final accumulator. -/
def fetchLoop (stc : Transaction → TransactionStatus) (now lim exp : Nat)
    (avoid : List Hash) (avoidDup : Bool) :
    List Transaction → FetchAcc → List Transaction × FetchAcc
  | [], acc => ([], acc)
  | t :: rest, acc =>
    if t.hash ∈ acc.invalidTxs then
      let r := fetchLoop stc now lim exp avoid avoidDup rest acc
      (t :: r.1, r.2)
    else if avoidDup = true ∧ t.sealed = true then
      let r := fetchLoop stc now lim exp avoid avoidDup rest acc
      (t :: r.1, r.2)
    else if t.importTime + exp < now then
      let r := fetchLoop stc now lim exp avoid avoidDup rest (stageInvalid acc t)
      (t :: r.1, r.2)
    else if stc t = TransactionStatus.NonceCheckFail then
      let r := fetchLoop stc now lim exp avoid avoidDup rest (stageInvalid acc t)
      (consumeCallback t :: r.1, r.2)
    else if stc t = TransactionStatus.BlockLimitCheckFail then
      let r := fetchLoop stc now lim exp avoid avoidDup rest (stageInvalid acc t)
      (t :: r.1, r.2)
    else if t.hash ∈ avoid then
      let r := fetchLoop stc now lim exp avoid avoidDup rest acc
      (t :: r.1, r.2)
    else
      let acc1 := emitMeta acc t
      if lim ≤ acc1.txsList.length + acc1.sysTxsList.length then
        (sealForFetch t :: rest, acc1)
      else
        let r := fetchLoop stc now lim exp avoid avoidDup rest acc1
        (sealForFetch t :: r.1, r.2)

/-- The outputs of `batchFetchTxs`: the two out-parameter blocks and the final
state. -/
structure FetchOutput where
  txsList : List TransactionMetaData
  sysTxsList : List TransactionMetaData
  state : MemoryStorage
  deriving Repr

namespace MemoryStorage

/-- `batchFetchTxs`: traverse, seal candidates, then upgrade the lock and drain
the staged invalidations. -/
def batchFetchTxs (stc : Transaction → TransactionStatus) (now lim : Nat)
    (avoid : List Hash) (avoidDup : Bool) (s : MemoryStorage) : FetchOutput :=
  let acc0 : FetchAcc :=
    { invalidTxs := s.invalidTxs, invalidNonces := s.invalidNonces
      sealedTxsSize := s.sealedTxsSize, txsList := [], sysTxsList := [] }
  let r := fetchLoop stc now lim s.txsExpirationTime avoid avoidDup s.txsTable acc0
  let s1 :=
    { s with
      txsTable := r.1
      invalidTxs := r.2.invalidTxs
      invalidNonces := r.2.invalidNonces
      sealedTxsSize := r.2.sealedTxsSize }
  let s2 := notifyUnsealedTxsSize s1
  { txsList := r.2.txsList, sysTxsList := r.2.sysTxsList
    state := removeInvalidTxs s2 }

end MemoryStorage

/-- The removal loop of `batchRemove`: removes each result's hash, collects the
nonce (from the removed transaction, or from the result when the transaction is
absent but the result carries a nonce), and pairs each removed handle with its
result for the callback phase. -/
def batchRemoveLoop :
    MemoryStorage → List TxSubmitResult →
    MemoryStorage × List Nonce × List (Option Transaction × TxSubmitResult)
  | s, [] => (s, [], [])
  | s, r :: rest =>
    let step := s.removeWithoutLock r.txHash
    let tail := batchRemoveLoop step.2 rest
    let nonces :=
      match step.1 with
      | none => if r.nonce ≠ "" then r.nonce :: tail.2.1 else tail.2.1
      | some t => t.nonce :: tail.2.1
    (tail.1, nonces, (step.1, r) :: tail.2.2)

/-- The hashes whose submit callback fires in the callback phase of
`batchRemove`: removed handles whose consume-once slot still held a callback. -/
def firedHashes (pairs : List (Option Transaction × TxSubmitResult)) : List Hash :=
  pairs.filterMap
    (fun p =>
      match p.1 with
      | some t => if t.hasSubmitCallback then some t.hash else none
      | none => none)

/-- The outputs of `batchRemove`: final state, the nonce list handed to the
nonce checkers, and the hashes whose submit callbacks fired. -/
structure RemoveOutput where
  state : MemoryStorage
  nonceList : List Nonce
  fired : List Hash
  deriving Repr

namespace MemoryStorage

/-- `batchRemove(batchId, results)`: remove each entry, advance `blockNumber`,
notify the unsealed count, push nonces downstream, then fire the collected
callbacks (each consume-once slot at most once). -/
def batchRemove (s : MemoryStorage) (batchId : Int)
    (results : List TxSubmitResult) (now : Nat) : RemoveOutput :=
  let s0 := { s with blockNumberUpdatedTime := now }
  let r := batchRemoveLoop s0 results
  let s2 := if r.1.blockNumber < batchId then { r.1 with blockNumber := batchId } else r.1
  { state := notifyUnsealedTxsSize s2, nonceList := r.2.1, fired := firedHashes r.2.2 }

end MemoryStorage

/-- `tx->appendKnownNode(peer)`.  Modelled from the spec: the `Transaction`
implementation is outside this repository's sources; per the spec `knownNodes`
is the set of peer ids known to already have the transaction, and appending
records the peer in that set (any bounded eviction drops oldest entries, never
the peer just appended). -/
def appendKnownNode (p : NodeId) (t : Transaction) : Transaction :=
  { t with knownNodes := setInsert p t.knownNodes }

/-- Second loop of `filterUnknownTxs`: collect the hashes absent from both
`m_txsTable` and `m_missedTxs`, adding them to `m_missedTxs`. -/
def filterUnknownLoop (tbl : List Transaction) :
    List Hash → List Hash → List Hash × List Hash
  | [], missed => ([], missed)
  | h :: rest, missed =>
    if (findFirst tbl h).isSome then filterUnknownLoop tbl rest missed
    else if h ∈ missed then filterUnknownLoop tbl rest missed
    else
      let r := filterUnknownLoop tbl rest (missed ++ [h])
      (h :: r.1, r.2)

namespace MemoryStorage

/-- `filterUnknownTxs(hashes, peer)`: record the peer on every known hash, then
return the hashes unknown to both the table and `m_missedTxs`; clear
`m_missedTxs` when it reaches the pool limit. -/
def filterUnknownTxs (s : MemoryStorage) (hashes : List Hash) (p : NodeId) :
    List Hash × MemoryStorage :=
  let tbl := hashes.foldl (fun tb h => updateFirst tb h (appendKnownNode p)) s.txsTable
  let r := filterUnknownLoop tbl hashes s.missedTxs
  let missed1 := if s.poolLimit ≤ r.2.length then [] else r.2
  (r.1, { s with txsTable := tbl, missedTxs := missed1 })

end MemoryStorage

/-- The traversal of `fetchNewTxs`: skip synced entries, mark the rest synced
and collect them, stopping once the result size reaches the limit (the check
runs after each append).  `k` is the current result size. -/
def fetchNewLoop (lim : Nat) :
    List Transaction → Nat → List Transaction × List Transaction
  | [], _ => ([], [])
  | t :: rest, k =>
    if t.synced then
      let r := fetchNewLoop lim rest k
      (t :: r.1, r.2)
    else
      let t1 := { t with synced := true }
      if lim ≤ k + 1 then (t1 :: rest, [t1])
      else
        let r := fetchNewLoop lim rest (k + 1)
        (t1 :: r.1, t1 :: r.2)

namespace MemoryStorage

/-- `fetchNewTxs(limit)`: hand out not-yet-broadcast transactions, marking them
synced.  Returns the new state and the fetched list. -/
def fetchNewTxs (s : MemoryStorage) (lim : Nat) :
    MemoryStorage × List Transaction :=
  let r := fetchNewLoop lim s.txsTable 0
  ({ s with txsTable := r.1 }, r.2)

end MemoryStorage

/-- The staging traversal of `cleanUpExpiredTransactions`: visit entries while
the traversal budget allows, skipping entries already staged or sealed for a
batch at or above the last committed block, and stage the expired ones.  `n` is
`traversedTxsNum` (incremented only for entries that reach the expiry check). -/
def cleanLoop (now exp : Nat) (bn : Int) (maxT : Nat) :
    List Transaction → Nat → List Hash → List Nonce → List Hash × List Nonce
  | [], _, inv, invN => (inv, invN)
  | t :: rest, n, inv, invN =>
    if maxT < n then (inv, invN)
    else if t.hash ∈ inv then cleanLoop now exp bn maxT rest n inv invN
    else if t.sealed = true ∧ bn ≤ t.batchId then cleanLoop now exp bn maxT rest n inv invN
    else if t.importTime + exp < now then
      cleanLoop now exp bn maxT rest (n + 1) (setInsert t.hash inv) (setInsert t.nonce invN)
    else cleanLoop now exp bn maxT rest (n + 1) inv invN

namespace MemoryStorage

/-- `cleanUpExpiredTransactions` (one reaper tick): do nothing when the
pluggable cleanup switch is present and off or the table is empty; otherwise
stage expired entries within the traversal budget and drain them. -/
def cleanUpExpiredTransactions (switchOn : Option Bool) (maxT now : Nat)
    (s : MemoryStorage) : MemoryStorage :=
  if switchOn = some false then s
  else if s.txsTable = [] then s
  else
    let r := cleanLoop now s.txsExpirationTime s.blockNumber maxT s.txsTable 0
      s.invalidTxs s.invalidNonces
    removeInvalidTxs { s with invalidTxs := r.1, invalidNonces := r.2 }

end MemoryStorage

/-! ### Basic lemmas about the table primitives -/

theorem sealedCount_nil : sealedCount [] = 0 := rfl

theorem sealedCount_cons (t : Transaction) (l : List Transaction) :
    sealedCount (t :: l) = (if t.sealed then 1 else 0) + sealedCount l := by
  simp only [sealedCount, List.filter_cons]
  by_cases h : t.sealed <;> simp [h, Nat.add_comm]

theorem sealedCount_le_length (l : List Transaction) : sealedCount l ≤ l.length :=
  List.length_filter_le _ l

theorem mem_setInsert_self {α : Type} [DecidableEq α] (a : α) (l : List α) :
    a ∈ setInsert a l := by
  unfold setInsert
  by_cases h : a ∈ l
  · rw [if_pos h]; exact h
  · rw [if_neg h]; simp

theorem mem_setInsert_of_mem {α : Type} [DecidableEq α] {a b : α} {l : List α}
    (h : a ∈ l) : a ∈ setInsert b l := by
  unfold setInsert
  by_cases hb : b ∈ l
  · rw [if_pos hb]; exact h
  · rw [if_neg hb]; exact List.mem_append_left _ h


theorem findFirst_eq_none_of_not_mem {l : List Transaction} {h : Hash}
    (hm : h ∉ l.map (fun t => t.hash)) : findFirst l h = none := by
  induction l with
  | nil => rfl
  | cons t ts ih =>
    simp only [List.map_cons, List.mem_cons, not_or] at hm
    simp only [findFirst]
    rw [if_neg (fun he => hm.1 he.symm)]
    exact ih hm.2

theorem findFirst_mem {l : List Transaction} {h : Hash} {t : Transaction}
    (hf : findFirst l h = some t) : t ∈ l := by
  induction l with
  | nil => simp [findFirst] at hf
  | cons u us ih =>
    simp only [findFirst] at hf
    by_cases hu : u.hash = h
    · rw [if_pos hu] at hf
      exact (Option.some_inj.mp hf) ▸ List.mem_cons_self u us
    · rw [if_neg hu] at hf
      exact List.mem_cons_of_mem u (ih hf)

theorem findFirst_hash {l : List Transaction} {h : Hash} {t : Transaction}
    (hf : findFirst l h = some t) : t.hash = h := by
  induction l with
  | nil => simp [findFirst] at hf
  | cons u us ih =>
    simp only [findFirst] at hf
    by_cases hu : u.hash = h
    · rw [if_pos hu] at hf
      exact (Option.some_inj.mp hf) ▸ hu
    · rw [if_neg hu] at hf
      exact ih hf

theorem findFirst_isSome_of_mem {l : List Transaction} {t : Transaction}
    (hm : t ∈ l) : (findFirst l t.hash).isSome := by
  induction l with
  | nil => simp at hm
  | cons u us ih =>
    simp only [findFirst]
    by_cases hu : u.hash = t.hash
    · rw [if_pos hu]; rfl
    · rw [if_neg hu]
      rcases List.mem_cons.mp hm with rfl | hm2
      · exact absurd rfl hu
      · exact ih hm2

theorem findFirst_of_mem_nodup {l : List Transaction} {t : Transaction}
    (hm : t ∈ l) (hn : (l.map (fun u => u.hash)).Nodup) :
    findFirst l t.hash = some t := by
  induction l with
  | nil => simp at hm
  | cons u us ih =>
    simp only [List.map_cons, List.nodup_cons] at hn
    simp only [findFirst]
    rcases List.mem_cons.mp hm with rfl | hm2
    · rw [if_pos rfl]
    · have hne : u.hash ≠ t.hash := by
        intro he
        exact hn.1 (he ▸ List.mem_map_of_mem (fun v => v.hash) hm2)
      rw [if_neg hne]
      exact ih hm2 hn.2

theorem findFirst_append_of_none {l1 l2 : List Transaction} {h : Hash}
    (h1 : findFirst l1 h = none) :
    findFirst (l1 ++ l2) h = findFirst l2 h := by
  induction l1 with
  | nil => rfl
  | cons u us ih =>
    simp only [findFirst] at h1 ⊢
    by_cases hu : u.hash = h
    · rw [if_pos hu] at h1; exact absurd h1 (by simp)
    · rw [if_neg hu] at h1 ⊢
      exact ih h1

theorem map_hash_eraseFirst (l : List Transaction) (h : Hash) :
    (eraseFirst l h).map (fun t => t.hash) = (l.map (fun t => t.hash)).erase h := by
  induction l with
  | nil => rfl
  | cons u us ih =>
    simp only [eraseFirst, List.map_cons, List.erase_cons]
    by_cases hu : u.hash = h
    · rw [if_pos hu]
      simp [hu]
    · rw [if_neg hu]
      simp only [List.map_cons]
      rw [if_neg (by simpa using hu)]
      rw [ih]

theorem findFirst_eraseFirst_self {l : List Transaction} {h : Hash}
    (hn : (l.map (fun t => t.hash)).Nodup) :
    findFirst (eraseFirst l h) h = none := by
  apply findFirst_eq_none_of_not_mem
  rw [map_hash_eraseFirst]
  exact hn.not_mem_erase

theorem findFirst_eraseFirst_ne {l : List Transaction} {h h2 : Hash}
    (hne : h2 ≠ h) : findFirst (eraseFirst l h) h2 = findFirst l h2 := by
  induction l with
  | nil => rfl
  | cons u us ih =>
    simp only [eraseFirst]
    by_cases hu : u.hash = h
    · rw [if_pos hu]
      simp only [findFirst]
      rw [if_neg (show ¬u.hash = h2 from fun he => hne (he ▸ hu))]
    · rw [if_neg hu]
      simp only [findFirst]
      by_cases hu2 : u.hash = h2
      · rw [if_pos hu2, if_pos hu2]
      · rw [if_neg hu2, if_neg hu2]
        exact ih

theorem sealedCount_eraseFirst {l : List Transaction} {h : Hash} {t : Transaction}
    (hf : findFirst l h = some t) :
    sealedCount l = sealedCount (eraseFirst l h) + (if t.sealed then 1 else 0) := by
  induction l with
  | nil => simp [findFirst] at hf
  | cons u us ih =>
    simp only [findFirst] at hf
    simp only [eraseFirst]
    by_cases hu : u.hash = h
    · rw [if_pos hu] at hf
      rw [if_pos hu]
      rw [Option.some_inj.mp hf] at *
      rw [sealedCount_cons, Nat.add_comm]
    · rw [if_neg hu] at hf
      rw [if_neg hu]
      rw [sealedCount_cons, sealedCount_cons, ih hf, Nat.add_assoc]

theorem length_eraseFirst {l : List Transaction} {h : Hash} {t : Transaction}
    (hf : findFirst l h = some t) :
    l.length = (eraseFirst l h).length + 1 := by
  induction l with
  | nil => simp [findFirst] at hf
  | cons u us ih =>
    simp only [findFirst] at hf
    simp only [eraseFirst]
    by_cases hu : u.hash = h
    · rw [if_pos hu]; simp
    · rw [if_neg hu] at hf
      rw [if_neg hu]
      simp only [List.length_cons]
      rw [ih hf]

theorem one_le_sealedCount_of_sealed {l : List Transaction} {h : Hash} {t : Transaction}
    (hf : findFirst l h = some t) (hs : t.sealed = true) : 1 ≤ sealedCount l := by
  rw [sealedCount_eraseFirst hf, hs]
  simp

theorem map_hash_updateFirst {l : List Transaction} {h : Hash}
    {f : Transaction → Transaction} (hf : ∀ t, (f t).hash = t.hash) :
    (updateFirst l h f).map (fun t => t.hash) = l.map (fun t => t.hash) := by
  induction l with
  | nil => rfl
  | cons u us ih =>
    simp only [updateFirst]
    by_cases hu : u.hash = h
    · rw [if_pos hu]
      simp [hf u]
    · rw [if_neg hu]
      simp only [List.map_cons]
      rw [ih]

theorem updateFirst_of_none {l : List Transaction} {h : Hash}
    {f : Transaction → Transaction} (hn : findFirst l h = none) :
    updateFirst l h f = l := by
  induction l with
  | nil => rfl
  | cons u us ih =>
    simp only [findFirst] at hn
    simp only [updateFirst]
    by_cases hu : u.hash = h
    · rw [if_pos hu] at hn; exact absurd hn (by simp)
    · rw [if_neg hu] at hn ⊢
      rw [ih hn]

theorem findFirst_updateFirst_self {l : List Transaction} {h : Hash} {t : Transaction}
    {f : Transaction → Transaction} (hf : findFirst l h = some t)
    (hpres : (f t).hash = t.hash) :
    findFirst (updateFirst l h f) h = some (f t) := by
  induction l with
  | nil => simp [findFirst] at hf
  | cons u us ih =>
    simp only [findFirst] at hf
    simp only [updateFirst]
    by_cases hu : u.hash = h
    · rw [if_pos hu] at hf
      rw [if_pos hu]
      simp only [findFirst]
      rw [Option.some_inj.mp hf] at *
      rw [if_pos (hpres.trans hu)]
    · rw [if_neg hu] at hf
      rw [if_neg hu]
      simp only [findFirst]
      rw [if_neg hu]
      exact ih hf

theorem findFirst_updateFirst_ne {l : List Transaction} {h h2 : Hash}
    {f : Transaction → Transaction} (hpres : ∀ t, (f t).hash = t.hash)
    (hne : h2 ≠ h) :
    findFirst (updateFirst l h f) h2 = findFirst l h2 := by
  induction l with
  | nil => rfl
  | cons u us ih =>
    simp only [updateFirst, findFirst]
    by_cases hu : u.hash = h
    · rw [if_pos hu]
      simp only [findFirst]
      rw [hpres u]
      by_cases hu2 : u.hash = h2
      · exact absurd (hu2 ▸ hu) hne
      · rw [if_neg hu2, if_neg hu2]
    · rw [if_neg hu]
      simp only [findFirst]
      by_cases hu2 : u.hash = h2
      · rw [if_pos hu2, if_pos hu2]
      · rw [if_neg hu2, if_neg hu2]
        exact ih

theorem sealedCount_updateFirst {l : List Transaction} {h : Hash} {t : Transaction}
    {f : Transaction → Transaction} (hf : findFirst l h = some t) :
    sealedCount (updateFirst l h f) + (if t.sealed then 1 else 0) =
      sealedCount l + (if (f t).sealed then 1 else 0) := by
  induction l with
  | nil => simp [findFirst] at hf
  | cons u us ih =>
    simp only [findFirst] at hf
    simp only [updateFirst]
    by_cases hu : u.hash = h
    · rw [if_pos hu] at hf
      rw [if_pos hu]
      rw [Option.some_inj.mp hf] at *
      rw [sealedCount_cons, sealedCount_cons]
      omega
    · rw [if_neg hu] at hf
      rw [if_neg hu]
      rw [sealedCount_cons, sealedCount_cons]
      have := ih hf
      omega

theorem length_updateFirst (l : List Transaction) (h : Hash)
    (f : Transaction → Transaction) :
    (updateFirst l h f).length = l.length := by
  induction l with
  | nil => rfl
  | cons u us ih =>
    simp only [updateFirst]
    by_cases hu : u.hash = h
    · rw [if_pos hu]; simp
    · rw [if_neg hu]; simp [ih]

/-! ### The notify repair -/

theorem notify_of_sealedInvariant {s : MemoryStorage} (hs : sealedInvariant s) :
    s.notifyUnsealedTxsSize = s := by
  have hs' : s.sealedTxsSize = sealedCount s.txsTable := hs
  have hle : s.sealedTxsSize ≤ s.txsTable.length := by
    rw [hs']; exact sealedCount_le_length _
  have hnlt : ¬s.txsTable.length < s.sealedTxsSize := Nat.not_lt.mpr hle
  unfold MemoryStorage.notifyUnsealedTxsSize MemoryStorage.unSealedTxsSizeWithoutLock
  rw [if_neg hnlt]
  by_cases hn : s.hasNotifier <;> simp [hn]

theorem notify_txsTable (s : MemoryStorage) :
    s.notifyUnsealedTxsSize.txsTable = s.txsTable := by
  unfold MemoryStorage.notifyUnsealedTxsSize MemoryStorage.unSealedTxsSizeWithoutLock
  by_cases hn : s.hasNotifier <;> by_cases hr : s.txsTable.length < s.sealedTxsSize <;>
    simp [hn, hr]

theorem notify_invalidTxs (s : MemoryStorage) :
    s.notifyUnsealedTxsSize.invalidTxs = s.invalidTxs := by
  unfold MemoryStorage.notifyUnsealedTxsSize MemoryStorage.unSealedTxsSizeWithoutLock
  by_cases hn : s.hasNotifier <;> by_cases hr : s.txsTable.length < s.sealedTxsSize <;>
    simp [hn, hr]

theorem sealedInvariant_notify {s : MemoryStorage} (hs : sealedInvariant s) :
    sealedInvariant s.notifyUnsealedTxsSize := by
  rw [notify_of_sealedInvariant hs]; exact hs

/-! ### Preservation of invariant I2 by each operation -/

theorem sealedCount_append (l1 l2 : List Transaction) :
    sealedCount (l1 ++ l2) = sealedCount l1 + sealedCount l2 := by
  simp [sealedCount, List.filter_append]

theorem insertWithoutLock_inv {s : MemoryStorage} {tx : Transaction}
    (hs : sealedInvariant s) (htx : tx.sealed = false) :
    sealedInvariant (s.insertWithoutLock tx).2 := by
  unfold MemoryStorage.insertWithoutLock
  cases hf : findFirst s.txsTable tx.hash with
  | some t => exact hs
  | none =>
    apply sealedInvariant_notify
    unfold sealedInvariant at hs ⊢
    simp only
    rw [sealedCount_append, hs]
    simp [sealedCount, htx]

theorem removeWithoutLock_inv {s : MemoryStorage} {h : Hash}
    (hs : sealedInvariant s) :
    sealedInvariant (s.removeWithoutLock h).2 := by
  unfold MemoryStorage.removeWithoutLock
  cases hf : findFirst s.txsTable h with
  | none => exact hs
  | some tx =>
    dsimp only
    unfold sealedInvariant at hs ⊢
    dsimp only
    have hc := sealedCount_eraseFirst hf
    cases hts : tx.sealed with
    | false => simp [hts] at hc ⊢; omega
    | true =>
      have h1 := one_le_sealedCount_of_sealed hf hts
      simp [hts] at hc ⊢
      omega

theorem markOne_inv {b : Int} {bh : Hash} {flag : Bool} {s : MemoryStorage}
    {h : Hash} (hs : sealedInvariant s) :
    sealedInvariant (MemoryStorage.markOne b bh flag s h) := by
  unfold MemoryStorage.markOne
  cases hf : findFirst s.txsTable h with
  | none => exact hs
  | some tx =>
    dsimp only
    by_cases hg : (tx.batchId ≠ b ∨ tx.batchHash ≠ bh) ∧ tx.sealed = true ∧ flag = false
    · rw [if_pos hg]; exact hs
    · rw [if_neg hg]
      unfold sealedInvariant at hs ⊢
      have hcu := sealedCount_updateFirst
        (f := fun u => if flag then { u with sealed := true, batchId := b, batchHash := bh }
          else { u with sealed := false }) hf
      cases flag with
      | true =>
        cases hts : tx.sealed with
        | false =>
          simp [hts] at hcu ⊢
          omega
        | true =>
          simp [hts] at hcu ⊢
          omega
      | false =>
        cases hts : tx.sealed with
        | false =>
          simp [hts] at hcu ⊢
          omega
        | true =>
          have h1 := one_le_sealedCount_of_sealed hf hts
          simp [hts] at hcu ⊢
          omega

theorem batchMarkLoop_inv {b : Int} {bh : Hash} {flag : Bool}
    {hashes : List Hash} :
    ∀ {s : MemoryStorage}, sealedInvariant s →
      sealedInvariant (MemoryStorage.batchMarkLoop b bh flag s hashes) := by
  induction hashes with
  | nil => intro s hs; exact hs
  | cons h rest ih =>
    intro s hs
    exact ih (markOne_inv hs)

theorem batchMarkTxsWithoutLock_inv {s : MemoryStorage} {hashes : List Hash}
    {b : Int} {bh : Hash} {flag : Bool} (hs : sealedInvariant s) :
    sealedInvariant (s.batchMarkTxsWithoutLock hashes b bh flag) :=
  sealedInvariant_notify (batchMarkLoop_inv hs)

theorem sealedCount_map_seal (l : List Transaction) :
    sealedCount (l.map (fun t => { t with sealed := true })) = l.length := by
  induction l with
  | nil => rfl
  | cons t ts ih =>
    simp only [List.map_cons, sealedCount_cons, List.length_cons]
    simp only [ih]
    simp
    omega

theorem sealedCount_map_unseal (l : List Transaction) :
    sealedCount (l.map (fun t => { t with sealed := false, batchId := -1, batchHash := 0 })) = 0 := by
  induction l with
  | nil => rfl
  | cons t ts ih =>
    simp only [List.map_cons, sealedCount_cons]
    simp only [ih]
    simp

theorem batchMarkAllTxs_inv (s : MemoryStorage) (flag : Bool) :
    sealedInvariant (s.batchMarkAllTxs flag) := by
  unfold MemoryStorage.batchMarkAllTxs
  apply sealedInvariant_notify
  unfold sealedInvariant
  cases flag with
  | true =>
    simp only [if_true]
    rw [sealedCount_map_seal]
    simp
  | false =>
    dsimp only
    simp only [Bool.false_eq_true, if_false]
    rw [sealedCount_map_unseal]

theorem clear_inv {s : MemoryStorage} (hn : s.hasNotifier = true) :
    sealedInvariant s.clear := by
  unfold MemoryStorage.clear MemoryStorage.notifyUnsealedTxsSize
    MemoryStorage.unSealedTxsSizeWithoutLock
  unfold sealedInvariant
  simp only [hn, if_pos rfl]
  by_cases hz : s.sealedTxsSize = 0
  · simp [hz, sealedCount]
  · simp only [List.length_nil]
    rw [if_pos (Nat.pos_of_ne_zero hz)]
    simp [sealedCount]

theorem notify_counter_of_le {s : MemoryStorage}
    (hle : s.sealedTxsSize ≤ s.txsTable.length) :
    s.notifyUnsealedTxsSize.sealedTxsSize = s.sealedTxsSize := by
  unfold MemoryStorage.notifyUnsealedTxsSize MemoryStorage.unSealedTxsSizeWithoutLock
  rw [if_neg (Nat.not_lt.mpr hle)]
  by_cases hb : s.hasNotifier <;> simp [hb]

theorem enforceSubmitTransaction_inv {stc : TransactionStatus}
    {s : MemoryStorage} {tx : Transaction} (hs : sealedInvariant s) :
    sealedInvariant (MemoryStorage.enforceSubmitTransaction stc s tx).2 := by
  unfold MemoryStorage.enforceSubmitTransaction
  by_cases hn : stc = TransactionStatus.NonceCheckFail
  · rw [if_pos hn]; exact hs
  · rw [if_neg hn]
    cases hf : findFirst s.txsTable tx.hash with
    | some t =>
      dsimp only
      by_cases hg : ¬t.sealed ∨ t.batchHash = 0
      · rw [if_pos hg]
        unfold sealedInvariant at hs ⊢
        have hcu := sealedCount_updateFirst
          (f := fun u => { u with sealed := true, batchId := tx.batchId, batchHash := tx.batchHash }) hf
        cases hts : t.sealed with
        | false =>
          simp [hts] at hcu ⊢
          omega
        | true =>
          simp [hts] at hcu ⊢
          omega
      · rw [if_neg hg]
        by_cases h2 : t.batchId = tx.batchId ∧ t.batchHash = tx.batchHash
        · rw [if_pos h2]; exact hs
        · rw [if_neg h2]; exact hs
    | none =>
      dsimp only
      have hins : MemoryStorage.insertWithoutLock s tx =
          (TransactionStatus.None,
            MemoryStorage.notifyUnsealedTxsSize { s with txsTable := s.txsTable ++ [tx] }) := by
        unfold MemoryStorage.insertWithoutLock
        rw [hf]
      rw [hins]
      dsimp only
      rw [if_neg (by simp)]
      have hs' : s.sealedTxsSize = sealedCount s.txsTable := hs
      have hle : s.sealedTxsSize ≤ s.txsTable.length := by
        rw [hs']; exact sealedCount_le_length _
      have hcnt : (MemoryStorage.notifyUnsealedTxsSize
          ({ s with txsTable := s.txsTable ++ [tx] } : MemoryStorage)).sealedTxsSize
          = s.sealedTxsSize := by
        apply notify_counter_of_le
        dsimp only
        simp only [List.length_append, List.length_cons]
        omega
      have htbl : (MemoryStorage.notifyUnsealedTxsSize
          ({ s with txsTable := s.txsTable ++ [tx] } : MemoryStorage)).txsTable
          = s.txsTable ++ [tx] := notify_txsTable _
      have hfind : findFirst (s.txsTable ++ [tx]) tx.hash = some tx := by
        rw [findFirst_append_of_none hf]
        simp [findFirst]
      have hcu := sealedCount_updateFirst
        (f := fun v => { v with sealed := true }) hfind
      unfold sealedInvariant
      dsimp only
      rw [hcnt, htbl]
      rw [sealedCount_append] at hcu
      cases hts : tx.sealed with
      | false =>
        simp [sealedCount, hts] at hcu hs' ⊢
        omega
      | true =>
        simp [sealedCount, hts] at hcu hs' ⊢
        omega

theorem verifyAndSubmitTransaction_inv {verify : Transaction → TransactionStatus}
    {s : MemoryStorage} {tx : Transaction} {cb cpl : Bool}
    (hs : sealedInvariant s) (htx : tx.sealed = false) :
    sealedInvariant (MemoryStorage.verifyAndSubmitTransaction verify s tx cb cpl).2 := by
  unfold MemoryStorage.verifyAndSubmitTransaction
  by_cases hc : MemoryStorage.txpoolStorageCheck s tx ≠ TransactionStatus.None
  · rw [if_pos hc]; exact hs
  · rw [if_neg hc]
    by_cases hl : cpl = true ∧ s.poolLimit ≤ s.txsTable.length
    · rw [if_pos hl]; exact hs
    · rw [if_neg hl]
      cases hv : verify tx with
      | None =>
        cases cb with
        | true => exact insertWithoutLock_inv hs (by simp [htx])
        | false => exact insertWithoutLock_inv hs htx
      | AlreadyInTxPool => exact hs
      | TxPoolIsFull => exact hs
      | NonceCheckFail => exact hs
      | BlockLimitCheckFail => exact hs
      | TransactionPoolTimeout => exact hs
      | Malform => exact hs

theorem stageInvalid_counter (acc : FetchAcc) (t : Transaction) :
    (stageInvalid acc t).sealedTxsSize = acc.sealedTxsSize := rfl

theorem emitMeta_counter (acc : FetchAcc) (t : Transaction) :
    (emitMeta acc t).sealedTxsSize =
      if t.sealed then acc.sealedTxsSize else acc.sealedTxsSize + 1 := by
  unfold emitMeta
  by_cases hs : t.sealed <;> by_cases hsys : t.systemTx <;> simp [hs, hsys]

theorem consumeCallback_sealed (t : Transaction) :
    (consumeCallback t).sealed = t.sealed := rfl

theorem sealForFetch_sealed (t : Transaction) :
    (sealForFetch t).sealed = true := rfl

theorem fetchLoop_count (stc : Transaction → TransactionStatus) (now lim exp : Nat)
    (avoid : List Hash) (avoidDup : Bool) :
    ∀ (tbl : List Transaction) (acc : FetchAcc),
      (fetchLoop stc now lim exp avoid avoidDup tbl acc).2.sealedTxsSize + sealedCount tbl
        = acc.sealedTxsSize + sealedCount (fetchLoop stc now lim exp avoid avoidDup tbl acc).1 := by
  intro tbl
  induction tbl with
  | nil => intro acc; simp [fetchLoop]
  | cons t rest ih =>
    intro acc
    unfold fetchLoop
    by_cases h1 : t.hash ∈ acc.invalidTxs
    · rw [if_pos h1]
      dsimp only
      rw [sealedCount_cons, sealedCount_cons]
      have := ih acc
      omega
    · rw [if_neg h1]
      by_cases h2 : avoidDup = true ∧ t.sealed = true
      · rw [if_pos h2]
        dsimp only
        rw [sealedCount_cons, sealedCount_cons]
        have := ih acc
        omega
      · rw [if_neg h2]
        by_cases h3 : t.importTime + exp < now
        · rw [if_pos h3]
          dsimp only
          rw [sealedCount_cons, sealedCount_cons]
          have := ih (stageInvalid acc t)
          rw [stageInvalid_counter] at this
          omega
        · rw [if_neg h3]
          by_cases h4 : stc t = TransactionStatus.NonceCheckFail
          · rw [if_pos h4]
            dsimp only
            rw [sealedCount_cons, sealedCount_cons]
            have := ih (stageInvalid acc t)
            rw [stageInvalid_counter] at this
            have hcs : (consumeCallback t).sealed = t.sealed := rfl
            rw [hcs]
            omega
          · rw [if_neg h4]
            by_cases h5 : stc t = TransactionStatus.BlockLimitCheckFail
            · rw [if_pos h5]
              dsimp only
              rw [sealedCount_cons, sealedCount_cons]
              have := ih (stageInvalid acc t)
              rw [stageInvalid_counter] at this
              omega
            · rw [if_neg h5]
              by_cases h6 : t.hash ∈ avoid
              · rw [if_pos h6]
                dsimp only
                rw [sealedCount_cons, sealedCount_cons]
                have := ih acc
                omega
              · rw [if_neg h6]
                dsimp only
                have hec := emitMeta_counter acc t
                by_cases h7 : lim ≤ (emitMeta acc t).txsList.length +
                    (emitMeta acc t).sysTxsList.length
                · rw [if_pos h7]
                  dsimp only
                  rw [sealedCount_cons, sealedCount_cons, sealForFetch_sealed]
                  cases hts : t.sealed with
                  | false => simp [hts] at hec ⊢; omega
                  | true => simp [hts] at hec ⊢; omega
                · rw [if_neg h7]
                  dsimp only
                  rw [sealedCount_cons, sealedCount_cons, sealForFetch_sealed]
                  have := ih (emitMeta acc t)
                  cases hts : t.sealed with
                  | false => simp [hts] at hec this ⊢; omega
                  | true => simp [hts] at hec this ⊢; omega

theorem removeInvalidLoop_inv {hashes : List Hash} :
    ∀ {s : MemoryStorage}, sealedInvariant s →
      sealedInvariant (MemoryStorage.removeInvalidLoop s hashes) := by
  induction hashes with
  | nil => intro s hs; exact hs
  | cons h rest ih => intro s hs; exact ih (removeWithoutLock_inv hs)

theorem removeInvalidTxs_inv {s : MemoryStorage} (hs : sealedInvariant s) :
    sealedInvariant s.removeInvalidTxs := by
  unfold MemoryStorage.removeInvalidTxs
  by_cases he : s.invalidTxs = []
  · rw [if_pos he]; exact hs
  · rw [if_neg he]
    exact sealedInvariant_notify (removeInvalidLoop_inv hs)

theorem batchFetchTxs_inv {stc : Transaction → TransactionStatus} {now lim : Nat}
    {avoid : List Hash} {avoidDup : Bool} {s : MemoryStorage}
    (hs : sealedInvariant s) :
    sealedInvariant (s.batchFetchTxs stc now lim avoid avoidDup).state := by
  unfold MemoryStorage.batchFetchTxs
  dsimp only
  apply removeInvalidTxs_inv
  apply sealedInvariant_notify
  have hcnt := fetchLoop_count stc now lim s.txsExpirationTime avoid avoidDup s.txsTable
    { invalidTxs := s.invalidTxs, invalidNonces := s.invalidNonces
      sealedTxsSize := s.sealedTxsSize, txsList := [], sysTxsList := [] }
  dsimp only at hcnt
  have hs' : s.sealedTxsSize = sealedCount s.txsTable := hs
  unfold sealedInvariant
  dsimp only
  omega

theorem batchRemoveLoop_inv {results : List TxSubmitResult} :
    ∀ {s : MemoryStorage}, sealedInvariant s →
      sealedInvariant (batchRemoveLoop s results).1 := by
  induction results with
  | nil => intro s hs; exact hs
  | cons r rest ih =>
    intro s hs
    unfold batchRemoveLoop
    dsimp only
    exact ih (removeWithoutLock_inv hs)

theorem batchRemove_inv {s : MemoryStorage} {batchId : Int}
    {results : List TxSubmitResult} {now : Nat} (hs : sealedInvariant s) :
    sealedInvariant (s.batchRemove batchId results now).state := by
  unfold MemoryStorage.batchRemove
  dsimp only
  apply sealedInvariant_notify
  have h1 : sealedInvariant
      (batchRemoveLoop ({ s with blockNumberUpdatedTime := now } : MemoryStorage) results).1 :=
    batchRemoveLoop_inv hs
  by_cases hb : (batchRemoveLoop ({ s with blockNumberUpdatedTime := now } :
      MemoryStorage) results).1.blockNumber < batchId
  · rw [if_pos hb]; exact h1
  · rw [if_neg hb]; exact h1

theorem batchImportTxs_inv {verify : Transaction → TransactionStatus}
    {txs : List Transaction} :
    ∀ {s : MemoryStorage}, sealedInvariant s →
      (∀ tx ∈ txs, tx.sealed = false) →
      sealedInvariant (MemoryStorage.batchImportTxs verify s txs) := by
  induction txs with
  | nil =>
    intro s hs _
    exact sealedInvariant_notify hs
  | cons tx rest ih =>
    intro s hs htx
    unfold MemoryStorage.batchImportTxs
    dsimp only
    simp only [List.foldl_cons]
    by_cases hi : tx.invalid
    · rw [if_pos hi]
      exact ih hs (fun u hu => htx u (List.mem_cons_of_mem tx hu))
    · rw [if_neg hi]
      exact ih (verifyAndSubmitTransaction_inv hs (htx tx (List.mem_cons_self tx rest)))
        (fun u hu => htx u (List.mem_cons_of_mem tx hu))

instance (s : MemoryStorage) : Decidable (sealedInvariant s) :=
  inferInstanceAs (Decidable (s.sealedTxsSize = sealedCount s.txsTable))

instance (l : List Transaction) : Decidable (keysUnique l) :=
  inferInstanceAs (Decidable ((l.map (fun t : Transaction => t.hash)).Nodup))

/-! ### Concrete fixtures for witnesses and counterexamples -/

/-- A fresh unsealed transaction with the given hash. -/
def mkTx (h : Hash) : Transaction :=
  { hash := h, nonce := "n", sender := 0, toAddr := 0, importTime := 0, sealed := false,
    batchId := 0, batchHash := 0, synced := false, knownNodes := [], hasSubmitCallback := false,
    systemTx := false, txAttribute := 0, invalid := false }

/-- A pool state holding the given table with the given sealed counter. -/
def mkState (txs : List Transaction) (cnt : Nat) : MemoryStorage :=
  { txsTable := txs, invalidTxs := [], invalidNonces := [], missedTxs := [],
    sealedTxsSize := cnt, blockNumber := 0, blockNumberUpdatedTime := 0, poolLimit := 10,
    txsExpirationTime := 100, hasNotifier := true }

/-! ### Claim C1 -/

/-- C1 (amended): every pool mutation preserves invariant I2
(`sealedTxsSize = |{t : t.sealed}|`) — insertion for transactions that enter
unsealed, as on the submission paths — except that `clear()` empties the table
without touching `sealedTxsSize` and re-establishes the equality only through
the lazy repair in `notifyUnsealedTxsSize`, hence only when an unsealed-count
notifier is registered. -/
theorem C1_sealed_counter_amended (s : MemoryStorage) (hs : sealedInvariant s)
    (tx : Transaction) (htx : tx.sealed = false)
    (verify stc : Transaction → TransactionStatus) (stc1 : TransactionStatus)
    (h : Hash) (hashes : List Hash) (b : Int) (bh : Hash)
    (flag cb cpl avoidDup : Bool) (now lim : Nat) (avoid : List Hash)
    (results : List TxSubmitResult) (txs : List Transaction)
    (htxs : ∀ u ∈ txs, u.sealed = false) (hn : s.hasNotifier = true) :
    sealedInvariant (s.insertWithoutLock tx).2 ∧
    sealedInvariant (MemoryStorage.verifyAndSubmitTransaction verify s tx cb cpl).2 ∧
    sealedInvariant (MemoryStorage.enforceSubmitTransaction stc1 s tx).2 ∧
    sealedInvariant (s.removeWithoutLock h).2 ∧
    sealedInvariant (s.batchMarkTxs hashes b bh flag) ∧
    sealedInvariant (s.batchMarkAllTxs flag) ∧
    sealedInvariant (s.batchFetchTxs stc now lim avoid avoidDup).state ∧
    sealedInvariant (s.batchRemove b results now).state ∧
    sealedInvariant s.removeInvalidTxs ∧
    sealedInvariant (MemoryStorage.batchImportTxs verify s txs) ∧
    sealedInvariant s.clear :=
  ⟨insertWithoutLock_inv hs htx,
    verifyAndSubmitTransaction_inv hs htx,
    enforceSubmitTransaction_inv hs,
    removeWithoutLock_inv hs,
    batchMarkTxsWithoutLock_inv hs,
    batchMarkAllTxs_inv s flag,
    batchFetchTxs_inv hs,
    batchRemove_inv hs,
    removeInvalidTxs_inv hs,
    batchImportTxs_inv hs htxs,
    clear_inv hn⟩

/-- C1 witness: concrete instantiation of the preservation theorem. -/
theorem C1_sealed_counter_witness :
    sealedInvariant (mkState [mkTx 1] 0).clear ∧
    sealedInvariant ((mkState [mkTx 1] 0).insertWithoutLock (mkTx 2)).2 :=
  ⟨(C1_sealed_counter_amended (mkState [mkTx 1] 0)
      (by decide) (mkTx 2) (by decide)
      (fun _ => TransactionStatus.None) (fun _ => TransactionStatus.None)
      TransactionStatus.None 1 [1] 0 0 false false false false 5 10 [] [] []
      (by simp) (by decide)).2.2.2.2.2.2.2.2.2.2,
    (C1_sealed_counter_amended (mkState [mkTx 1] 0)
      (by decide) (mkTx 2) (by decide)
      (fun _ => TransactionStatus.None) (fun _ => TransactionStatus.None)
      TransactionStatus.None 1 [1] 0 0 false false false false 5 10 [] [] []
      (by simp) (by decide)).1⟩

/-- A reachable-looking state with one sealed transaction, a matching counter,
and no notifier registered. -/
def noNotifierState : MemoryStorage :=
  { mkState [{ mkTx 1 with sealed := true, batchId := 3, batchHash := 9 }] 1 with
    hasNotifier := false }

/-- C1 counterexample: `clear()` with no unsealed-count notifier registered
leaves `sealedTxsSize = 1` over an empty table, violating I2; the claim that
every clearing operation preserves the equality is false as stated. -/
theorem C1_clear_counterexample :
    sealedInvariant noNotifierState ∧ ¬sealedInvariant noNotifierState.clear := by
  decide

/-! ### Claim C5 -/

/-- C5: for a transaction that is present and not committed on chain,
`enforceSubmitTransaction` returns `None` when it is sealed under the same
`(batchId, batchHash)` as the proposal, and `AlreadyInTxPool` when it is sealed
under a different proposal's `(batchId, batchHash)` (a proposal's `batchHash`
is non-empty). -/
theorem C5_enforce_conflict (stc : TransactionStatus) (s : MemoryStorage)
    (tx t : Transaction) (hstc : stc ≠ TransactionStatus.NonceCheckFail)
    (hfind : findFirst s.txsTable tx.hash = some t) (hsealed : t.sealed = true) :
    (t.batchId = tx.batchId ∧ t.batchHash = tx.batchHash →
      (MemoryStorage.enforceSubmitTransaction stc s tx).1 = TransactionStatus.None) ∧
    (t.batchHash ≠ 0 → ¬(t.batchId = tx.batchId ∧ t.batchHash = tx.batchHash) →
      (MemoryStorage.enforceSubmitTransaction stc s tx).1 =
        TransactionStatus.AlreadyInTxPool) := by
  unfold MemoryStorage.enforceSubmitTransaction
  rw [if_neg hstc, hfind]
  dsimp only
  constructor
  · rintro ⟨hb, hh⟩
    by_cases h0 : t.batchHash = 0
    · rw [if_pos (Or.inr h0)]
    · rw [if_neg (by simp [hsealed, h0])]
      rw [if_pos ⟨hb, hh⟩]
  · intro hnz hne
    rw [if_neg (by simp [hsealed, hnz])]
    rw [if_neg hne]

/-- Fixture: a transaction sealed under proposal `(7, 5)`. -/
def sealedUnder75 : Transaction :=
  { mkTx 1 with sealed := true, batchId := 7, batchHash := 5 }

/-- C5 witness: same-proposal re-submission succeeds, different-proposal
re-submission is rejected with `AlreadyInTxPool`. -/
theorem C5_enforce_conflict_witness :
    (MemoryStorage.enforceSubmitTransaction TransactionStatus.None
      (mkState [sealedUnder75] 1) { mkTx 1 with batchId := 7, batchHash := 5 }).1 =
      TransactionStatus.None ∧
    (MemoryStorage.enforceSubmitTransaction TransactionStatus.None
      (mkState [sealedUnder75] 1) { mkTx 1 with batchId := 9, batchHash := 13 }).1 =
      TransactionStatus.AlreadyInTxPool :=
  ⟨(C5_enforce_conflict TransactionStatus.None (mkState [sealedUnder75] 1)
      { mkTx 1 with batchId := 7, batchHash := 5 } sealedUnder75
      (by decide) (by decide) (by decide)).1 (by decide),
    (C5_enforce_conflict TransactionStatus.None (mkState [sealedUnder75] 1)
      { mkTx 1 with batchId := 9, batchHash := 13 } sealedUnder75
      (by decide) (by decide) (by decide)).2 (by decide) (by decide)⟩

/-! ### Claim C8 -/

/-- C8: at `|txsTable| = poolLimit`, a client-sourced submission of a new,
otherwise valid transaction returns `TxPoolIsFull` with the state unchanged,
while a P2P-sourced import of the same transaction through `batchImportTxs`
skips the capacity check and lands the transaction in the table. -/
theorem C8_pool_limit (verify : Transaction → TransactionStatus)
    (s : MemoryStorage) (tx : Transaction) (cb : Bool)
    (habsent : findFirst s.txsTable tx.hash = none)
    (hfull : s.txsTable.length = s.poolLimit)
    (hverify : verify tx = TransactionStatus.None)
    (hvalid : tx.invalid = false) :
    MemoryStorage.verifyAndSubmitTransaction verify s tx cb true =
      (TransactionStatus.TxPoolIsFull, s) ∧
    findFirst (MemoryStorage.batchImportTxs verify s [tx]).txsTable tx.hash =
      some tx := by
  have hcheck : MemoryStorage.txpoolStorageCheck s tx = TransactionStatus.None := by
    unfold MemoryStorage.txpoolStorageCheck
    rw [habsent]
  constructor
  · unfold MemoryStorage.verifyAndSubmitTransaction
    rw [hcheck]
    rw [if_neg (by simp)]
    rw [if_pos ⟨rfl, le_of_eq hfull.symm⟩]
  · unfold MemoryStorage.batchImportTxs
    dsimp only
    simp only [List.foldl_cons, List.foldl_nil]
    rw [if_neg (by simp [hvalid])]
    have hsub : (MemoryStorage.verifyAndSubmitTransaction verify s tx false false).2 =
        MemoryStorage.notifyUnsealedTxsSize
          ({ s with txsTable := s.txsTable ++ [tx] } : MemoryStorage) := by
      unfold MemoryStorage.verifyAndSubmitTransaction
      rw [hcheck]
      rw [if_neg (by simp)]
      rw [if_neg (by simp)]
      rw [hverify]
      dsimp only
      simp only [Bool.false_eq_true, if_false]
      unfold MemoryStorage.insertWithoutLock
      rw [habsent]
    rw [hsub]
    rw [notify_txsTable, notify_txsTable]
    rw [findFirst_append_of_none habsent]
    simp [findFirst]

/-- C8 witness: a pool of capacity one holding one transaction. -/
theorem C8_pool_limit_witness :
    MemoryStorage.verifyAndSubmitTransaction (fun _ => TransactionStatus.None)
      ({ mkState [mkTx 1] 0 with poolLimit := 1 }) (mkTx 2) true true =
      (TransactionStatus.TxPoolIsFull, { mkState [mkTx 1] 0 with poolLimit := 1 }) ∧
    findFirst (MemoryStorage.batchImportTxs (fun _ => TransactionStatus.None)
      ({ mkState [mkTx 1] 0 with poolLimit := 1 }) [mkTx 2]).txsTable (mkTx 2).hash =
      some (mkTx 2) :=
  C8_pool_limit (fun _ => TransactionStatus.None)
    ({ mkState [mkTx 1] 0 with poolLimit := 1 }) (mkTx 2) true
    (by decide) (by decide) rfl (by decide)

/-! ### Claim C10 -/

theorem eq_of_mem_mem_nodup {l : List Transaction} {a b : Transaction}
    (hn : (l.map (fun t => t.hash)).Nodup) (ha : a ∈ l) (hb : b ∈ l)
    (hh : a.hash = b.hash) : a = b := by
  have h1 := findFirst_of_mem_nodup ha hn
  have h2 := findFirst_of_mem_nodup hb hn
  rw [hh] at h1
  rw [h1] at h2
  exact Option.some_inj.mp h2

theorem fetchNewLoop_spec (lim : Nat) :
    ∀ (tbl : List Transaction) (k : Nat),
      ((fetchNewLoop lim tbl k).1.map (fun t => t.hash) = tbl.map (fun t => t.hash)) ∧
      (∀ t ∈ (fetchNewLoop lim tbl k).2, t.synced = true ∧
        t ∈ (fetchNewLoop lim tbl k).1 ∧
        ∃ t0 ∈ tbl, t0.hash = t.hash ∧ t0.synced = false) ∧
      (k < lim → (fetchNewLoop lim tbl k).2.length + k ≤ lim) := by
  intro tbl
  induction tbl with
  | nil =>
    intro k
    refine ⟨rfl, ?_, ?_⟩
    · intro t ht; simp [fetchNewLoop] at ht
    · intro hk; simp [fetchNewLoop]; omega
  | cons t rest ih =>
    intro k
    unfold fetchNewLoop
    by_cases hsy : t.synced
    · rw [if_pos hsy]
      dsimp only
      obtain ⟨ih1, ih2, ih3⟩ := ih k
      refine ⟨by simp [ih1], ?_, ?_⟩
      · intro u hu
        obtain ⟨hu1, hu2, t0, ht0, ht0h, ht0s⟩ := ih2 u hu
        exact ⟨hu1, List.mem_cons_of_mem _ hu2,
          t0, List.mem_cons_of_mem _ ht0, ht0h, ht0s⟩
      · exact ih3
    · rw [if_neg hsy]
      dsimp only
      by_cases hbreak : lim ≤ k + 1
      · rw [if_pos hbreak]
        dsimp only
        refine ⟨by simp, ?_, ?_⟩
        · intro u hu
          simp only [List.mem_singleton] at hu
          subst hu
          exact ⟨rfl, List.mem_cons_self _ _,
            t, List.mem_cons_self _ _, rfl, Bool.eq_false_iff.mpr hsy⟩
        · intro hk
          simp only [List.length_singleton]
          omega
      · rw [if_neg hbreak]
        dsimp only
        obtain ⟨ih1, ih2, ih3⟩ := ih (k + 1)
        refine ⟨by simp [ih1], ?_, ?_⟩
        · intro u hu
          rcases List.mem_cons.mp hu with rfl | hu2
          · exact ⟨rfl, List.mem_cons_self _ _,
              t, List.mem_cons_self _ _, rfl, Bool.eq_false_iff.mpr hsy⟩
          · obtain ⟨hu1, hum, t0, ht0, ht0h, ht0s⟩ := ih2 u hu2
            exact ⟨hu1, List.mem_cons_of_mem _ hum,
              t0, List.mem_cons_of_mem _ ht0, ht0h, ht0s⟩
        · intro hk
          have := ih3 (by omega)
          simp only [List.length_cons]
          omega

/-- C10 (amended): every transaction returned by `fetchNewTxs(limit)` had
`synced = false` at call time and sits in the table marked `synced = true` when
returned; the result holds at most `limit` transactions whenever `limit ≥ 1`
(with `limit = 0` the post-append size check still admits one transaction); and
the result sets of two consecutive calls are disjoint. -/
theorem C10_fetchNewTxs_amended (s : MemoryStorage) (l1 l2 : Nat)
    (hN : keysUnique s.txsTable) :
    (1 ≤ l1 → (s.fetchNewTxs l1).2.length ≤ l1) ∧
    (∀ t ∈ (s.fetchNewTxs l1).2, t.synced = true ∧
      (∃ t0 ∈ s.txsTable, t0.hash = t.hash ∧ t0.synced = false) ∧
      findFirst (s.fetchNewTxs l1).1.txsTable t.hash = some t) ∧
    (∀ t ∈ ((s.fetchNewTxs l1).1.fetchNewTxs l2).2,
      ∀ u ∈ (s.fetchNewTxs l1).2, t.hash ≠ u.hash) := by
  obtain ⟨h1, h2, h3⟩ := fetchNewLoop_spec l1 s.txsTable 0
  have hN1 : ((fetchNewLoop l1 s.txsTable 0).1.map (fun t => t.hash)).Nodup := by
    rw [h1]; exact hN
  refine ⟨?_, ?_, ?_⟩
  · intro hl
    have := h3 (by omega)
    unfold MemoryStorage.fetchNewTxs
    dsimp only
    omega
  · intro t ht
    unfold MemoryStorage.fetchNewTxs at ht ⊢
    dsimp only at ht ⊢
    obtain ⟨ht1, htm, t0, ht0, ht0h, ht0s⟩ := h2 t ht
    exact ⟨ht1, ⟨t0, ht0, ht0h, ht0s⟩, findFirst_of_mem_nodup htm hN1⟩
  · intro t ht u hu he
    unfold MemoryStorage.fetchNewTxs at ht hu
    dsimp only at ht hu
    obtain ⟨ht1, htm, t0, ht0, ht0h, ht0s⟩ :=
      (fetchNewLoop_spec l2 (fetchNewLoop l1 s.txsTable 0).1 0).2.1 t ht
    obtain ⟨hu1, hum, _, _, _, _⟩ := h2 u hu
    -- `t0` is the entry of the intermediate table with `t`'s hash, unsynced;
    -- `u` is in that same table, synced, with the same hash
    have : t0 = u := eq_of_mem_mem_nodup hN1 ht0 hum (by rw [ht0h, he])
    rw [this] at ht0s
    rw [hu1] at ht0s
    exact absurd ht0s (by simp)

/-- C10 counterexample: with `limit = 0` and one unsynced transaction in the
pool, `fetchNewTxs` still returns one transaction, exceeding the limit — the
size check runs only after the first append. -/
theorem C10_limit_zero_counterexample :
    ((mkState [mkTx 1] 0).fetchNewTxs 0).2.length = 1 := by decide

/-- C10 witness: two consecutive fetches on a two-transaction pool. -/
theorem C10_fetchNewTxs_witness :
    (1 ≤ 1 → ((mkState [mkTx 1, mkTx 2] 0).fetchNewTxs 1).2.length ≤ 1) ∧
    (∀ t ∈ ((mkState [mkTx 1, mkTx 2] 0).fetchNewTxs 1).2, t.synced = true ∧
      (∃ t0 ∈ (mkState [mkTx 1, mkTx 2] 0).txsTable, t0.hash = t.hash ∧ t0.synced = false) ∧
      findFirst ((mkState [mkTx 1, mkTx 2] 0).fetchNewTxs 1).1.txsTable t.hash = some t) ∧
    (∀ t ∈ (((mkState [mkTx 1, mkTx 2] 0).fetchNewTxs 1).1.fetchNewTxs 5).2,
      ∀ u ∈ ((mkState [mkTx 1, mkTx 2] 0).fetchNewTxs 1).2, t.hash ≠ u.hash) :=
  C10_fetchNewTxs_amended (mkState [mkTx 1, mkTx 2] 0) 1 5 (by decide)

/-! ### Claim C3 -/

theorem map_proj_updateFirst {α : Type} (proj : Transaction → α)
    {l : List Transaction} {h : Hash} {f : Transaction → Transaction}
    (hp : ∀ t, proj (f t) = proj t) :
    (updateFirst l h f).map proj = l.map proj := by
  induction l with
  | nil => rfl
  | cons u us ih =>
    simp only [updateFirst]
    by_cases hu : u.hash = h
    · rw [if_pos hu]
      simp [hp u]
    · rw [if_neg hu]
      simp only [List.map_cons]
      rw [ih]

/-- Unsealing through `markOne` never touches `hash`, `batchId` or
`batchHash`. -/
theorem markOne_false_fields (b : Int) (bh : Hash) (s : MemoryStorage) (h : Hash) :
    (MemoryStorage.markOne b bh false s h).txsTable.map
        (fun t => (t.hash, t.batchId, t.batchHash)) =
      s.txsTable.map (fun t => (t.hash, t.batchId, t.batchHash)) := by
  unfold MemoryStorage.markOne
  cases hf : findFirst s.txsTable h with
  | none => rfl
  | some tx =>
    dsimp only
    by_cases hg : (tx.batchId ≠ b ∨ tx.batchHash ≠ bh) ∧ tx.sealed = true ∧ false = false
    · rw [if_pos hg]
    · rw [if_neg hg]
      dsimp only
      by_cases h1 : false = true ∧ tx.sealed = false
      · exact absurd h1.1 (by simp)
      · rw [if_neg h1]
        by_cases h2 : false = false ∧ tx.sealed = true
        · rw [if_pos h2]
          dsimp only
          exact map_proj_updateFirst _ (fun t => by simp)
        · rw [if_neg h2]
          exact map_proj_updateFirst _ (fun t => by simp)

theorem batchMarkLoop_false_fields (b : Int) (bh : Hash) (H : List Hash) :
    ∀ s : MemoryStorage,
      (MemoryStorage.batchMarkLoop b bh false s H).txsTable.map
          (fun t => (t.hash, t.batchId, t.batchHash)) =
        s.txsTable.map (fun t => (t.hash, t.batchId, t.batchHash)) := by
  induction H with
  | nil => intro s; rfl
  | cons h rest ih =>
    intro s
    unfold MemoryStorage.batchMarkLoop
    rw [ih, markOne_false_fields]

/-- Entries that are already unsealed keep all their fields under an unsealing
`batchMarkLoop` pass (the flag write is the only mutation and it is
idempotent). -/
theorem batchMarkLoop_false_stable (b : Int) (bh : Hash) (H : List Hash) :
    ∀ (s : MemoryStorage) (h : Hash) (t : Transaction),
      findFirst s.txsTable h = some t → t.sealed = false →
      ∃ u, findFirst (MemoryStorage.batchMarkLoop b bh false s H).txsTable h = some u ∧
        u.sealed = false ∧ u.batchId = t.batchId ∧ u.batchHash = t.batchHash := by
  induction H with
  | nil => intro s h t hf hts; exact ⟨t, hf, hts, rfl, rfl⟩
  | cons h2 rest ih =>
    intro s h t hf hts
    unfold MemoryStorage.batchMarkLoop
    by_cases he : h2 = h
    · subst he
      -- the entry at `h2` is `t`, unsealed: the guard passes, the counter
      -- branch is inert, and the update rewrites `sealed := false`
      unfold MemoryStorage.markOne
      rw [hf]
      dsimp only
      by_cases hg : (t.batchId ≠ b ∨ t.batchHash ≠ bh) ∧ t.sealed = true ∧ false = false
      · rw [if_pos hg]
        exact ih s h2 t hf hts
      · rw [if_neg hg]
        rw [if_neg (by simp)]
        rw [if_neg (by simp [hts])]
        have hupd : findFirst (updateFirst s.txsTable h2
            (fun u => if false = true then { u with sealed := true, batchId := b, batchHash := bh }
              else { u with sealed := false })) h2 =
            some { t with sealed := false } := by
          have := findFirst_updateFirst_self (f := fun u =>
            if false = true then { u with sealed := true, batchId := b, batchHash := bh }
            else { u with sealed := false }) hf (by simp)
          simp only [Bool.false_eq_true, if_false] at this
          exact this
        obtain ⟨u, hu1, hu2, hu3, hu4⟩ := ih ({ s with txsTable := updateFirst s.txsTable h2 (fun u => if false = true then { u with sealed := true, batchId := b, batchHash := bh } else { u with sealed := false }) }) h2 { t with sealed := false } hupd rfl
        exact ⟨u, hu1, hu2, hu3, hu4⟩
    · -- a different hash: the entry at `h` is untouched by this step
      have hpres : findFirst (MemoryStorage.markOne b bh false s h2).txsTable h =
          findFirst s.txsTable h := by
        unfold MemoryStorage.markOne
        cases hf2 : findFirst s.txsTable h2 with
        | none => rfl
        | some t2 =>
          dsimp only
          by_cases hg : (t2.batchId ≠ b ∨ t2.batchHash ≠ bh) ∧ t2.sealed = true ∧ false = false
          · rw [if_pos hg]
          · rw [if_neg hg]
            dsimp only
            by_cases h1 : false = true ∧ t2.sealed = false
            · exact absurd h1.1 (by simp)
            · rw [if_neg h1]
              by_cases hcc : false = false ∧ t2.sealed = true
              · rw [if_pos hcc]
                dsimp only
                exact findFirst_updateFirst_ne (fun u => by simp) (fun hc => he hc.symm)
              · rw [if_neg hcc]
                exact findFirst_updateFirst_ne (fun u => by simp) (fun hc => he hc.symm)
      exact ih _ h t (hpres.trans hf) hts

/-- C3 (amended): after `batchMarkTxs(H, b, h, false)` with every hash of the
set `H` present and sealed under `(b, h)`, each of those transactions has
`sealed = false`, but its `batchId` and `batchHash` fields are NOT cleared:
they retain the values `b` and `h` (only a sealing `batchMarkTxs` writes these
fields; `batchMarkAllTxs(false)` is the call that resets them). -/
theorem C3_batchMark_unseal_amended (s : MemoryStorage) (H : List Hash) (b : Int)
    (bh : Hash) (hN : keysUnique s.txsTable) (hnd : H.Nodup)
    (hall : ∀ h ∈ H, ∃ t, findFirst s.txsTable h = some t ∧ t.sealed = true ∧
      t.batchId = b ∧ t.batchHash = bh) :
    ∀ h ∈ H, ∃ u, findFirst (s.batchMarkTxs H b bh false).txsTable h = some u ∧
      u.sealed = false ∧ u.batchId = b ∧ u.batchHash = bh := by
  unfold MemoryStorage.batchMarkTxs MemoryStorage.batchMarkTxsWithoutLock
  rw [notify_txsTable]
  induction H generalizing s with
  | nil => intro h hm; simp at hm
  | cons h0 rest ih =>
    intro h hm
    obtain ⟨t0, ht0, ht0s, ht0b, ht0h⟩ := hall h0 (List.mem_cons_self h0 rest)
    -- effect of the first step on the entry at `h0`
    have hstep : findFirst (MemoryStorage.markOne b bh false s h0).txsTable h0 =
        some { t0 with sealed := false } := by
      unfold MemoryStorage.markOne
      rw [ht0]
      dsimp only
      rw [if_neg (by simp [ht0b, ht0h])]
      dsimp only
      rw [if_neg (by simp)]
      rw [if_pos ⟨rfl, ht0s⟩]
      dsimp only
      have := findFirst_updateFirst_self (f := fun u =>
        if false = true then { u with sealed := true, batchId := b, batchHash := bh }
        else { u with sealed := false }) ht0 (by simp)
      simp only [Bool.false_eq_true, if_false] at this
      exact this
    have hstep_ne : ∀ h2, h2 ≠ h0 →
        findFirst (MemoryStorage.markOne b bh false s h0).txsTable h2 =
          findFirst s.txsTable h2 := by
      intro h2 hne
      unfold MemoryStorage.markOne
      rw [ht0]
      dsimp only
      rw [if_neg (by simp [ht0b, ht0h])]
      dsimp only
      rw [if_neg (by simp)]
      rw [if_pos ⟨rfl, ht0s⟩]
      dsimp only
      exact findFirst_updateFirst_ne (fun u => by simp) hne
    have hKeys : keysUnique (MemoryStorage.markOne b bh false s h0).txsTable := by
      unfold MemoryStorage.markOne
      rw [ht0]
      dsimp only
      rw [if_neg (by simp [ht0b, ht0h])]
      dsimp only
      rw [if_neg (by simp)]
      rw [if_pos ⟨rfl, ht0s⟩]
      dsimp only
      unfold keysUnique at hN ⊢
      rw [map_proj_updateFirst _ (fun u => by simp)]
      exact hN
    unfold MemoryStorage.batchMarkLoop
    rcases List.mem_cons.mp hm with rfl | hm2
    · -- the head hash: unsealed by the first step, stable afterwards
      obtain ⟨u, hu1, hu2, hu3, hu4⟩ :=
        batchMarkLoop_false_stable b bh rest _ h { t0 with sealed := false } hstep rfl
      exact ⟨u, hu1, hu2, by simpa [ht0b] using hu3, by simpa [ht0h] using hu4⟩
    · -- a later hash: its entry is untouched by the first step
      have hnd2 := List.nodup_cons.mp hnd
      apply ih _ hKeys hnd2.2
      intro h2 hm3
      obtain ⟨t2, ht2, ht2s, ht2b, ht2h⟩ := hall h2 (List.mem_cons_of_mem h0 hm3)
      have hne : h2 ≠ h0 := fun he => hnd2.1 (he ▸ hm3)
      exact ⟨t2, (hstep_ne h2 hne).trans ht2, ht2s, ht2b, ht2h⟩
      exact hm2

/-- C3 counterexample: unsealing a transaction sealed under `(7, 5)` with
`batchMarkTxs([h], 7, 5, false)` leaves `batchId = 7` and `batchHash = 5` in
place — the fields are not reset to their empty values `(-1, HashType())`. -/
theorem C3_fields_not_cleared_counterexample :
    findFirst ((mkState [sealedUnder75] 1).batchMarkTxs [1] 7 5 false).txsTable 1 =
      some { sealedUnder75 with sealed := false } ∧
    ({ sealedUnder75 with sealed := false } : Transaction).batchId = 7 ∧
    ({ sealedUnder75 with sealed := false } : Transaction).batchHash = 5 := by
  decide

/-- C3 witness: the amended statement at the `(7, 5)`-sealed fixture. -/
theorem C3_batchMark_unseal_witness :
    ∃ u, findFirst ((mkState [sealedUnder75] 1).batchMarkTxs [1] 7 5 false).txsTable 1 =
      some u ∧ u.sealed = false ∧ u.batchId = 7 ∧ u.batchHash = 5 :=
  C3_batchMark_unseal_amended (mkState [sealedUnder75] 1) [1] 7 5
    (by decide) (by decide)
    (by
      intro h hm
      simp only [List.mem_singleton] at hm
      subst hm
      exact ⟨sealedUnder75, by decide, by decide, by decide, by decide⟩)
    1 (by decide)

/-! ### Claim C6 -/

theorem not_mem_of_findFirst_none {l : List Transaction} {h : Hash}
    (hn : findFirst l h = none) : h ∉ l.map (fun t => t.hash) := by
  intro hm
  obtain ⟨t, htm, hth⟩ := List.mem_map.mp hm
  have := findFirst_isSome_of_mem htm
  rw [hth, hn] at this
  simp at this

theorem findFirst_eraseFirst_none {l : List Transaction} {h h2 : Hash}
    (hn : findFirst l h = none) : findFirst (eraseFirst l h2) h = none := by
  apply findFirst_eq_none_of_not_mem
  rw [map_hash_eraseFirst]
  intro hm
  exact not_mem_of_findFirst_none hn (List.mem_of_mem_erase hm)

theorem removeWithoutLock_keys {s : MemoryStorage} {h : Hash}
    (hN : keysUnique s.txsTable) : keysUnique (s.removeWithoutLock h).2.txsTable := by
  unfold MemoryStorage.removeWithoutLock
  cases hf : findFirst s.txsTable h with
  | none => exact hN
  | some tx =>
    dsimp only
    unfold keysUnique at hN ⊢
    rw [map_hash_eraseFirst]
    exact hN.erase h

/-- Absence from the table survives the removal loop. -/
theorem batchRemoveLoop_absent (results : List TxSubmitResult) :
    ∀ (s : MemoryStorage) (h : Hash), findFirst s.txsTable h = none →
      findFirst (batchRemoveLoop s results).1.txsTable h = none := by
  induction results with
  | nil => intro s h hn; exact hn
  | cons r rest ih =>
    intro s h hn
    unfold batchRemoveLoop
    dsimp only
    apply ih
    unfold MemoryStorage.removeWithoutLock
    cases hf : findFirst s.txsTable r.txHash with
    | none => exact hn
    | some tx =>
      dsimp only
      exact findFirst_eraseFirst_none hn

/-- Every result's hash is gone from the table after the removal loop. -/
theorem batchRemoveLoop_removes (results : List TxSubmitResult) :
    ∀ (s : MemoryStorage), keysUnique s.txsTable →
      ∀ r ∈ results, findFirst (batchRemoveLoop s results).1.txsTable r.txHash = none := by
  induction results with
  | nil => intro s _ r hr; simp at hr
  | cons r0 rest ih =>
    intro s hN r hr
    unfold batchRemoveLoop
    dsimp only
    rcases List.mem_cons.mp hr with rfl | hr2
    · apply batchRemoveLoop_absent
      unfold MemoryStorage.removeWithoutLock
      cases hf : findFirst s.txsTable r.txHash with
      | none => exact hf
      | some tx =>
        dsimp only
        exact findFirst_eraseFirst_self hN
    · exact ih _ (removeWithoutLock_keys hN) r hr2

theorem firedHashes_cons (opt : Option Transaction) (r : TxSubmitResult)
    (ps : List (Option Transaction × TxSubmitResult)) :
    firedHashes ((opt, r) :: ps) =
      (match opt with
        | some t => if t.hasSubmitCallback then t.hash :: firedHashes ps else firedHashes ps
        | none => firedHashes ps) := by
  cases opt with
  | none => simp [firedHashes, List.filterMap_cons]
  | some t =>
    by_cases hc : t.hasSubmitCallback <;>
      simp [firedHashes, List.filterMap_cons, hc]

/-- The fired-callback list: each hash appears at most once, and exactly the
hashes of removed transactions that still held a pending callback appear. -/
theorem batchRemoveLoop_fired (results : List TxSubmitResult) :
    ∀ (s : MemoryStorage), keysUnique s.txsTable →
      (∀ h : Hash, (firedHashes (batchRemoveLoop s results).2.2).count h ≤ 1) ∧
      (∀ h : Hash, h ∈ firedHashes (batchRemoveLoop s results).2.2 ↔
        ∃ r ∈ results, r.txHash = h ∧
          ∃ t, findFirst s.txsTable h = some t ∧ t.hasSubmitCallback = true) := by
  induction results with
  | nil =>
    intro s _
    constructor
    · intro h; simp [batchRemoveLoop, firedHashes]
    · intro h; simp [batchRemoveLoop, firedHashes]
  | cons r0 rest ih =>
    intro s hN
    obtain ⟨ihc, ihm⟩ := ih (s.removeWithoutLock r0.txHash).2 (removeWithoutLock_keys hN)
    cases hf0 : findFirst s.txsTable r0.txHash with
    | none =>
      have hstep1 : (s.removeWithoutLock r0.txHash).1 = none := by
        unfold MemoryStorage.removeWithoutLock
        rw [hf0]
      have hstate : (s.removeWithoutLock r0.txHash).2 = s := by
        unfold MemoryStorage.removeWithoutLock
        rw [hf0]
      rw [hstate] at ihc ihm
      constructor
      · intro h
        unfold batchRemoveLoop
        dsimp only
        rw [firedHashes_cons, hstep1, hstate]
        exact ihc h
      · intro h
        unfold batchRemoveLoop
        dsimp only
        rw [firedHashes_cons, hstep1, hstate]
        rw [ihm h]
        constructor
        · rintro ⟨r, hr, hrh, t, ht, htc⟩
          exact ⟨r, List.mem_cons_of_mem r0 hr, hrh, t, ht, htc⟩
        · rintro ⟨r, hr, hrh, t, ht, htc⟩
          rcases List.mem_cons.mp hr with rfl | hr2
          · rw [hrh] at hf0
            rw [hf0] at ht
            exact absurd ht (by simp)
          · exact ⟨r, hr2, hrh, t, ht, htc⟩
    | some t0 =>
      have ht0h : t0.hash = r0.txHash := findFirst_hash hf0
      have hstep1 : (s.removeWithoutLock r0.txHash).1 = some t0 := by
        unfold MemoryStorage.removeWithoutLock
        rw [hf0]
      have htab : (s.removeWithoutLock r0.txHash).2.txsTable =
          eraseFirst s.txsTable r0.txHash := by
        unfold MemoryStorage.removeWithoutLock
        rw [hf0]
      have hgone : findFirst (s.removeWithoutLock r0.txHash).2.txsTable r0.txHash = none := by
        rw [htab]
        exact findFirst_eraseFirst_self hN
      have hkeep : ∀ h : Hash, h ≠ r0.txHash →
          findFirst (s.removeWithoutLock r0.txHash).2.txsTable h = findFirst s.txsTable h := by
        intro h hne
        rw [htab]
        exact findFirst_eraseFirst_ne hne
      constructor
      · intro h
        unfold batchRemoveLoop
        dsimp only
        rw [firedHashes_cons, hstep1]
        dsimp only
        by_cases hc : t0.hasSubmitCallback
        · rw [if_pos hc]
          by_cases hh : h = t0.hash
          · have hgone2 : findFirst (s.removeWithoutLock r0.txHash).2.txsTable h = none := by
              rw [hh, ht0h]
              exact hgone
            have hnot : h ∉ firedHashes (batchRemoveLoop (s.removeWithoutLock r0.txHash).2 rest).2.2 := by
              rw [ihm h]
              rintro ⟨r, hr, hrh, t, ht, htc⟩
              rw [hgone2] at ht
              exact absurd ht (by simp)
            have hz : (firedHashes (batchRemoveLoop (s.removeWithoutLock r0.txHash).2 rest).2.2).count h = 0 :=
              List.count_eq_zero.mpr hnot
            rw [hh] at hz
            rw [hh]
            simp [List.count_cons, hz]
          · have hcc := ihc h
            have hne : ¬t0.hash = h := fun he => hh he.symm
            simp [List.count_cons, hne]
            omega
        · rw [if_neg hc]
          exact ihc h
      · intro h
        unfold batchRemoveLoop
        dsimp only
        rw [firedHashes_cons, hstep1]
        dsimp only
        have ihm2 := ihm h
        by_cases hc : t0.hasSubmitCallback
        · rw [if_pos hc]
          constructor
          · intro hmem
            rcases List.mem_cons.mp hmem with hh | hh
            · refine ⟨r0, List.mem_cons_self r0 rest, ?_, t0, ?_, hc⟩
              · rw [← ht0h]
                exact hh.symm
              · rw [hh, ht0h]
                exact hf0
            · obtain ⟨r, hr, hrh, t, ht, htc⟩ := ihm2.mp hh
              by_cases hhr : h = r0.txHash
              · rw [hhr] at ht
                rw [hgone] at ht
                exact absurd ht (by simp)
              · rw [hkeep h hhr] at ht
                exact ⟨r, List.mem_cons_of_mem r0 hr, hrh, t, ht, htc⟩
          · rintro ⟨r, hr, hrh, t, ht, htc⟩
            by_cases hhr : h = r0.txHash
            · exact List.mem_cons.mpr (Or.inl (by rw [hhr]; exact ht0h.symm))
            · rcases List.mem_cons.mp hr with rfl | hr2
              · exact absurd hrh.symm hhr
              · exact List.mem_cons.mpr (Or.inr (ihm2.mpr
                  ⟨r, hr2, hrh, t, (hkeep h hhr).symm ▸ ht, htc⟩))
        · rw [if_neg hc]
          rw [ihm2]
          constructor
          · rintro ⟨r, hr, hrh, t, ht, htc⟩
            by_cases hhr : h = r0.txHash
            · rw [hhr] at ht
              rw [hgone] at ht
              exact absurd ht (by simp)
            · rw [hkeep h hhr] at ht
              exact ⟨r, List.mem_cons_of_mem r0 hr, hrh, t, ht, htc⟩
          · rintro ⟨r, hr, hrh, t, ht, htc⟩
            by_cases hhr : h = r0.txHash
            · rw [hhr] at ht
              rw [hf0] at ht
              rw [Option.some_inj.mp ht] at hc
              exact absurd htc (by simp [hc])
            · rcases List.mem_cons.mp hr with rfl | hr2
              · exact absurd hrh.symm hhr
              · exact ⟨r, hr2, hrh, t, (hkeep h hhr).symm ▸ ht, htc⟩


theorem batchRemove_table (s : MemoryStorage) (batchId : Int)
    (results : List TxSubmitResult) (now : Nat) :
    (s.batchRemove batchId results now).state.txsTable =
      (batchRemoveLoop ({ s with blockNumberUpdatedTime := now } : MemoryStorage) results).1.txsTable := by
  unfold MemoryStorage.batchRemove
  dsimp only
  rw [notify_txsTable]
  by_cases hb : (batchRemoveLoop ({ s with blockNumberUpdatedTime := now } :
      MemoryStorage) results).1.blockNumber < batchId
  · rw [if_pos hb]
  · rw [if_neg hb]

/-- C6: after `batchRemove(b, R)`, no hash of `R` remains in `txsTable`, and
the submit callbacks fire exactly once per removed transaction that still held
a pending callback — no hash is notified twice, because the consume-once slot
travels with the removed handle. -/
theorem C6_batchRemove (s : MemoryStorage) (batchId : Int)
    (results : List TxSubmitResult) (now : Nat) (hN : keysUnique s.txsTable) :
    (∀ r ∈ results,
      findFirst (s.batchRemove batchId results now).state.txsTable r.txHash = none) ∧
    (∀ h : Hash, (s.batchRemove batchId results now).fired.count h ≤ 1) ∧
    (∀ h : Hash, h ∈ (s.batchRemove batchId results now).fired ↔
      ∃ r ∈ results, r.txHash = h ∧
        ∃ t, findFirst s.txsTable h = some t ∧ t.hasSubmitCallback = true) := by
  have hN0 : keysUnique ({ s with blockNumberUpdatedTime := now } :
      MemoryStorage).txsTable := hN
  obtain ⟨hc, hm⟩ := batchRemoveLoop_fired results _ hN0
  refine ⟨?_, ?_, ?_⟩
  · intro r hr
    rw [batchRemove_table]
    exact batchRemoveLoop_removes results _ hN0 r hr
  · intro h
    unfold MemoryStorage.batchRemove
    dsimp only
    exact hc h
  · intro h
    unfold MemoryStorage.batchRemove
    dsimp only
    exact hm h

/-- Fixture: a transaction with a pending submit callback. -/
def cbTx : Transaction := { mkTx 1 with hasSubmitCallback := true }

/-- C6 witness: removing a batch containing a duplicated result hash; the
removed transaction's callback fires once and its hash leaves the table. -/
theorem C6_batchRemove_witness :
    findFirst ((mkState [cbTx, mkTx 2] 0).batchRemove 4
      [⟨1, "n"⟩, ⟨1, "n"⟩, ⟨3, ""⟩] 99).state.txsTable 1 = none ∧
    ((mkState [cbTx, mkTx 2] 0).batchRemove 4
      [⟨1, "n"⟩, ⟨1, "n"⟩, ⟨3, ""⟩] 99).fired.count 1 ≤ 1 ∧
    (1 ∈ ((mkState [cbTx, mkTx 2] 0).batchRemove 4
      [⟨1, "n"⟩, ⟨1, "n"⟩, ⟨3, ""⟩] 99).fired ↔
      ∃ r ∈ [(⟨1, "n"⟩ : TxSubmitResult), ⟨1, "n"⟩, ⟨3, ""⟩], r.txHash = 1 ∧
        ∃ t, findFirst (mkState [cbTx, mkTx 2] 0).txsTable 1 = some t ∧
          t.hasSubmitCallback = true) :=
  ⟨(C6_batchRemove (mkState [cbTx, mkTx 2] 0) 4 [⟨1, "n"⟩, ⟨1, "n"⟩, ⟨3, ""⟩] 99
      (by decide)).1 ⟨1, "n"⟩ (by decide),
    (C6_batchRemove (mkState [cbTx, mkTx 2] 0) 4 [⟨1, "n"⟩, ⟨1, "n"⟩, ⟨3, ""⟩] 99
      (by decide)).2.1 1,
    (C6_batchRemove (mkState [cbTx, mkTx 2] 0) 4 [⟨1, "n"⟩, ⟨1, "n"⟩, ⟨3, ""⟩] 99
      (by decide)).2.2 1⟩

/-! ### Claim C7 -/

/-- Staged hashes are never dropped by the staging traversal. -/
theorem cleanLoop_mono (now exp : Nat) (bn : Int) (maxT : Nat) :
    ∀ (tbl : List Transaction) (n : Nat) (inv : List Hash) (invN : List Nonce)
      (h : Hash), h ∈ inv → h ∈ (cleanLoop now exp bn maxT tbl n inv invN).1 := by
  intro tbl
  induction tbl with
  | nil => intro n inv invN h hm; exact hm
  | cons u rest ih =>
    intro n inv invN h hm
    unfold cleanLoop
    by_cases h0 : maxT < n
    · rw [if_pos h0]; exact hm
    · rw [if_neg h0]
      by_cases h1 : u.hash ∈ inv
      · rw [if_pos h1]; exact ih n inv invN h hm
      · rw [if_neg h1]
        by_cases h2 : u.sealed = true ∧ bn ≤ u.batchId
        · rw [if_pos h2]; exact ih n inv invN h hm
        · rw [if_neg h2]
          by_cases h3 : u.importTime + exp < now
          · rw [if_pos h3]
            exact ih (n + 1) _ _ h (mem_setInsert_of_mem hm)
          · rw [if_neg h3]
            exact ih (n + 1) inv invN h hm

/-- Within the traversal budget, every expired entry that is not
sealed-for-a-current-batch ends up staged on the invalid set. -/
theorem cleanLoop_stages (now exp : Nat) (bn : Int) (maxT : Nat) :
    ∀ (tbl : List Transaction) (n : Nat) (inv : List Hash) (invN : List Nonce),
      n + tbl.length ≤ maxT + 1 →
      ∀ t ∈ tbl, t.importTime + exp < now → ¬(t.sealed = true ∧ bn ≤ t.batchId) →
        t.hash ∈ (cleanLoop now exp bn maxT tbl n inv invN).1 := by
  intro tbl
  induction tbl with
  | nil => intro n inv invN _ t hm; simp at hm
  | cons u rest ih =>
    intro n inv invN hbud t hm hexp hseal
    unfold cleanLoop
    have h0 : ¬maxT < n := by
      simp only [List.length_cons] at hbud
      omega
    rw [if_neg h0]
    rcases List.mem_cons.mp hm with rfl | hm2
    · by_cases h1 : t.hash ∈ inv
      · rw [if_pos h1]
        exact cleanLoop_mono now exp bn maxT rest n inv invN t.hash h1
      · rw [if_neg h1]
        rw [if_neg hseal]
        rw [if_pos hexp]
        exact cleanLoop_mono now exp bn maxT rest (n + 1) _ _ t.hash
          (mem_setInsert_self t.hash inv)
    · have hbud2 : n + 1 + rest.length ≤ maxT + 1 := by
        simp only [List.length_cons] at hbud
        omega
      by_cases h1 : u.hash ∈ inv
      · rw [if_pos h1]
        exact ih n inv invN (by simp only [List.length_cons] at hbud; omega) t hm2 hexp hseal
      · rw [if_neg h1]
        by_cases h2 : u.sealed = true ∧ bn ≤ u.batchId
        · rw [if_pos h2]
          exact ih n inv invN (by simp only [List.length_cons] at hbud; omega) t hm2 hexp hseal
        · rw [if_neg h2]
          by_cases h3 : u.importTime + exp < now
          · rw [if_pos h3]
            exact ih (n + 1) _ _ hbud2 t hm2 hexp hseal
          · rw [if_neg h3]
            exact ih (n + 1) inv invN hbud2 t hm2 hexp hseal

theorem removeInvalidLoop_absent (L : List Hash) :
    ∀ (s : MemoryStorage) (h : Hash), findFirst s.txsTable h = none →
      findFirst (MemoryStorage.removeInvalidLoop s L).txsTable h = none := by
  induction L with
  | nil => intro s h hn; exact hn
  | cons h0 rest ih =>
    intro s h hn
    unfold MemoryStorage.removeInvalidLoop
    apply ih
    unfold MemoryStorage.removeWithoutLock
    cases hf : findFirst s.txsTable h0 with
    | none => exact hn
    | some tx =>
      dsimp only
      exact findFirst_eraseFirst_none hn

theorem removeInvalidLoop_removes (L : List Hash) :
    ∀ (s : MemoryStorage), keysUnique s.txsTable →
      ∀ h ∈ L, findFirst (MemoryStorage.removeInvalidLoop s L).txsTable h = none := by
  induction L with
  | nil => intro s _ h hm; simp at hm
  | cons h0 rest ih =>
    intro s hN h hm
    unfold MemoryStorage.removeInvalidLoop
    rcases List.mem_cons.mp hm with rfl | hm2
    · apply removeInvalidLoop_absent
      unfold MemoryStorage.removeWithoutLock
      cases hf : findFirst s.txsTable h with
      | none => exact hf
      | some tx =>
        dsimp only
        exact findFirst_eraseFirst_self hN
    · exact ih _ (removeWithoutLock_keys hN) h hm2

theorem removeInvalidTxs_removes {s : MemoryStorage} (hN : keysUnique s.txsTable)
    {h : Hash} (hm : h ∈ s.invalidTxs) :
    findFirst s.removeInvalidTxs.txsTable h = none := by
  unfold MemoryStorage.removeInvalidTxs
  rw [if_neg (by intro he; rw [he] at hm; simp at hm)]
  dsimp only
  rw [notify_txsTable]
  exact removeInvalidLoop_removes s.invalidTxs s hN h hm

/-- C7: at a reaper tick with the cleanup switch enabled and the whole table
within the traversal budget, every expired entry that is not sealed for a batch
at or above the last committed block (or that is already staged) is staged on
`invalidTxs` and removed from the table by the tick. -/
theorem C7_reaper_expiry (switchOn : Option Bool) (maxT now : Nat)
    (s : MemoryStorage) (t : Transaction) (hN : keysUnique s.txsTable)
    (hsw : switchOn ≠ some false) (hbudget : s.txsTable.length ≤ maxT)
    (hmem : t ∈ s.txsTable)
    (hexp : t.importTime + s.txsExpirationTime < now)
    (hseal : ¬(t.sealed = true ∧ s.blockNumber ≤ t.batchId)) :
    t.hash ∈ (cleanLoop now s.txsExpirationTime s.blockNumber maxT s.txsTable 0
      s.invalidTxs s.invalidNonces).1 ∧
    findFirst (MemoryStorage.cleanUpExpiredTransactions switchOn maxT now s).txsTable
      t.hash = none := by
  have hne : s.txsTable ≠ [] := by
    intro he
    rw [he] at hmem
    simp at hmem
  have hstage : t.hash ∈ (cleanLoop now s.txsExpirationTime s.blockNumber maxT
      s.txsTable 0 s.invalidTxs s.invalidNonces).1 :=
    cleanLoop_stages now s.txsExpirationTime s.blockNumber maxT s.txsTable 0
      s.invalidTxs s.invalidNonces (by omega) t hmem hexp hseal
  refine ⟨hstage, ?_⟩
  unfold MemoryStorage.cleanUpExpiredTransactions
  rw [if_neg hsw, if_neg hne]
  dsimp only
  apply removeInvalidTxs_removes
  · exact hN
  · exact hstage

/-- C7 witness: an expired unsealed transaction is removed at the tick. -/
theorem C7_reaper_expiry_witness :
    (mkTx 1).hash ∈ (cleanLoop 500 (mkState [mkTx 1] 0).txsExpirationTime
      (mkState [mkTx 1] 0).blockNumber 10 (mkState [mkTx 1] 0).txsTable 0
      (mkState [mkTx 1] 0).invalidTxs (mkState [mkTx 1] 0).invalidNonces).1 ∧
    findFirst (MemoryStorage.cleanUpExpiredTransactions none 10 500
      (mkState [mkTx 1] 0)).txsTable (mkTx 1).hash = none :=
  C7_reaper_expiry none 10 500 (mkState [mkTx 1] 0) (mkTx 1)
    (by decide) (by decide) (by decide) (by decide) (by decide) (by decide)

/-! ### Characterization of the batchFetchTxs traversal -/

theorem mem_setInsert_iff {α : Type} [DecidableEq α] {a b : α} {l : List α} :
    a ∈ setInsert b l ↔ a = b ∨ a ∈ l := by
  unfold setInsert
  by_cases hb : b ∈ l
  · rw [if_pos hb]
    constructor
    · exact Or.inr
    · rintro (rfl | hm)
      · exact hb
      · exact hm
  · rw [if_neg hb]
    simp only [List.mem_append, List.mem_singleton]
    exact Or.comm

/-- The metadata entry `batchFetchTxs` emits for a candidate. -/
def fetchMeta (t : Transaction) : TransactionMetaData :=
  { hash := t.hash, toAddr := t.toAddr, txAttribute := t.txAttribute }

theorem fetchMeta_hash (t : Transaction) : (fetchMeta t).hash = t.hash := rfl

theorem emitMeta_invalidTxs (acc : FetchAcc) (t : Transaction) :
    (emitMeta acc t).invalidTxs = acc.invalidTxs := by
  unfold emitMeta
  by_cases hsys : t.systemTx <;> by_cases hsl : t.sealed <;> simp [hsys, hsl]

theorem emitMeta_txsList (acc : FetchAcc) (t : Transaction) :
    (emitMeta acc t).txsList =
      if t.systemTx then acc.txsList else acc.txsList ++ [fetchMeta t] := by
  unfold emitMeta fetchMeta
  by_cases hsys : t.systemTx <;> by_cases hsl : t.sealed <;> simp [hsys, hsl]

theorem emitMeta_sysTxsList (acc : FetchAcc) (t : Transaction) :
    (emitMeta acc t).sysTxsList =
      if t.systemTx then acc.sysTxsList ++ [fetchMeta t] else acc.sysTxsList := by
  unfold emitMeta fetchMeta
  by_cases hsys : t.systemTx <;> by_cases hsl : t.sealed <;> simp [hsys, hsl]

theorem mem_map_append_left {ts sys : List TransactionMetaData} {h : Hash}
    (hm : h ∈ ts.map (fun m => m.hash)) : h ∈ (ts ++ sys).map (fun m => m.hash) := by
  simp only [List.map_append, List.mem_append]
  exact Or.inl hm

theorem mem_map_append_right {ts sys : List TransactionMetaData} {h : Hash}
    (hm : h ∈ sys.map (fun m => m.hash)) : h ∈ (ts ++ sys).map (fun m => m.hash) := by
  simp only [List.map_append, List.mem_append]
  exact Or.inr hm

/-- Lifting the traversal characterization over a step that keeps the head
entry (possibly with its callback consumed) and emits nothing. -/
theorem fetchSpec_skip_step
    (t t' : Transaction) (rest r1 : List Transaction)
    (acc accMid acc2 : FetchAcc) (ts sys : List TransactionMetaData)
    (hth : t'.hash = t.hash)
    (hn1 : t.hash ∉ rest.map (fun u => u.hash))
    (hml1 : accMid.txsList = acc.txsList)
    (hml2 : accMid.sysTxsList = acc.sysTxsList)
    (hmidinv : ∀ h ∈ accMid.invalidTxs, h = t.hash ∨ h ∈ acc.invalidTxs)
    (e1 : acc2.txsList = accMid.txsList ++ ts)
    (e2 : acc2.sysTxsList = accMid.sysTxsList ++ sys)
    (e3 : r1.map (fun u => u.hash) = rest.map (fun u => u.hash))
    (e4 : ((ts ++ sys).map (fun m => m.hash)).Nodup)
    (e5 : ∀ h ∈ (ts ++ sys).map (fun m => m.hash), h ∈ rest.map (fun u => u.hash))
    (e6 : ∀ h ∈ (ts ++ sys).map (fun m => m.hash),
      ∃ u, findFirst r1 h = some u ∧ u.sealed = true ∧ u.batchId = -1 ∧ u.batchHash = 0)
    (e7 : ∀ h ∈ (ts ++ sys).map (fun m => m.hash), h ∉ acc2.invalidTxs)
    (e8 : ∀ h ∈ acc2.invalidTxs, h ∈ accMid.invalidTxs ∨ h ∈ rest.map (fun u => u.hash)) :
    acc2.txsList = acc.txsList ++ ts ∧
    acc2.sysTxsList = acc.sysTxsList ++ sys ∧
    (t' :: r1).map (fun u => u.hash) = (t :: rest).map (fun u => u.hash) ∧
    ((ts ++ sys).map (fun m => m.hash)).Nodup ∧
    (∀ h ∈ (ts ++ sys).map (fun m => m.hash), h ∈ (t :: rest).map (fun u => u.hash)) ∧
    (∀ h ∈ (ts ++ sys).map (fun m => m.hash),
      ∃ u, findFirst (t' :: r1) h = some u ∧ u.sealed = true ∧ u.batchId = -1 ∧
        u.batchHash = 0) ∧
    (∀ h ∈ (ts ++ sys).map (fun m => m.hash), h ∉ acc2.invalidTxs) ∧
    (∀ h ∈ acc2.invalidTxs, h ∈ acc.invalidTxs ∨ h ∈ (t :: rest).map (fun u => u.hash)) := by
  refine ⟨hml1 ▸ e1, hml2 ▸ e2, ?_, e4, ?_, ?_, e7, ?_⟩
  · simp [hth, e3]
  · intro h hm
    simp only [List.map_cons, List.mem_cons]
    exact Or.inr (e5 h hm)
  · intro h hm
    have hne : t'.hash ≠ h := by
      rw [hth]
      intro he
      exact hn1 (he ▸ e5 h hm)
    simp only [findFirst]
    rw [if_neg hne]
    exact e6 h hm
  · intro h hm
    rcases e8 h hm with hmid | hrest
    · rcases hmidinv h hmid with rfl | hacc
      · exact Or.inr (by simp)
      · exact Or.inl hacc
    · exact Or.inr (by simp only [List.map_cons, List.mem_cons]; exact Or.inr hrest)

/-- The full characterization of the `batchFetchTxs` traversal: the emitted
metadata extends the two output lists; the table keeps the same hashes in the
same order; the emitted hashes are distinct table hashes, their entries end up
sealed with `batchId = -1` and an empty `batchHash`, and none of them is
staged; and staged hashes are pre-existing or table hashes. -/
theorem fetchLoop_spec (stc : Transaction → TransactionStatus) (now lim exp : Nat)
    (avoid : List Hash) (avoidDup : Bool) :
    ∀ (tbl : List Transaction) (acc : FetchAcc),
      (tbl.map (fun t => t.hash)).Nodup →
      ∃ ts sys,
        (fetchLoop stc now lim exp avoid avoidDup tbl acc).2.txsList = acc.txsList ++ ts ∧
        (fetchLoop stc now lim exp avoid avoidDup tbl acc).2.sysTxsList =
          acc.sysTxsList ++ sys ∧
        (fetchLoop stc now lim exp avoid avoidDup tbl acc).1.map (fun u => u.hash) =
          tbl.map (fun u => u.hash) ∧
        ((ts ++ sys).map (fun m => m.hash)).Nodup ∧
        (∀ h ∈ (ts ++ sys).map (fun m => m.hash), h ∈ tbl.map (fun u => u.hash)) ∧
        (∀ h ∈ (ts ++ sys).map (fun m => m.hash),
          ∃ u, findFirst (fetchLoop stc now lim exp avoid avoidDup tbl acc).1 h = some u ∧
            u.sealed = true ∧ u.batchId = -1 ∧ u.batchHash = 0) ∧
        (∀ h ∈ (ts ++ sys).map (fun m => m.hash),
          h ∉ (fetchLoop stc now lim exp avoid avoidDup tbl acc).2.invalidTxs) ∧
        (∀ h ∈ (fetchLoop stc now lim exp avoid avoidDup tbl acc).2.invalidTxs,
          h ∈ acc.invalidTxs ∨ h ∈ tbl.map (fun u => u.hash)) := by
  intro tbl
  induction tbl with
  | nil =>
    intro acc _
    refine ⟨[], [], by simp [fetchLoop], by simp [fetchLoop], rfl, by simp, ?_, ?_, ?_, ?_⟩
    · intro h hm; simp at hm
    · intro h hm; simp at hm
    · intro h hm; simp at hm
    · intro h hm
      simp only [fetchLoop] at hm
      exact Or.inl hm
  | cons t rest ih =>
    intro acc hn
    rw [List.map_cons, List.nodup_cons] at hn
    obtain ⟨hn1, hn2⟩ := hn
    unfold fetchLoop
    by_cases h1 : t.hash ∈ acc.invalidTxs
    · rw [if_pos h1]
      dsimp only
      obtain ⟨ts, sys, e1, e2, e3, e4, e5, e6, e7, e8⟩ := ih acc hn2
      exact ⟨ts, sys, fetchSpec_skip_step t t rest _ acc acc _ ts sys rfl hn1 rfl rfl
        (fun h hm => Or.inr hm) e1 e2 e3 e4 e5 e6 e7 e8⟩
    · rw [if_neg h1]
      by_cases h2 : avoidDup = true ∧ t.sealed = true
      · rw [if_pos h2]
        dsimp only
        obtain ⟨ts, sys, e1, e2, e3, e4, e5, e6, e7, e8⟩ := ih acc hn2
        exact ⟨ts, sys, fetchSpec_skip_step t t rest _ acc acc _ ts sys rfl hn1 rfl rfl
          (fun h hm => Or.inr hm) e1 e2 e3 e4 e5 e6 e7 e8⟩
      · rw [if_neg h2]
        by_cases h3 : t.importTime + exp < now
        · rw [if_pos h3]
          dsimp only
          obtain ⟨ts, sys, e1, e2, e3, e4, e5, e6, e7, e8⟩ := ih (stageInvalid acc t) hn2
          exact ⟨ts, sys, fetchSpec_skip_step t t rest _ acc (stageInvalid acc t) _ ts sys
            rfl hn1 rfl rfl (fun h hm => mem_setInsert_iff.mp hm) e1 e2 e3 e4 e5 e6 e7 e8⟩
        · rw [if_neg h3]
          by_cases h4 : stc t = TransactionStatus.NonceCheckFail
          · rw [if_pos h4]
            dsimp only
            obtain ⟨ts, sys, e1, e2, e3, e4, e5, e6, e7, e8⟩ := ih (stageInvalid acc t) hn2
            exact ⟨ts, sys, fetchSpec_skip_step t (consumeCallback t) rest _ acc
              (stageInvalid acc t) _ ts sys rfl hn1 rfl rfl
              (fun h hm => mem_setInsert_iff.mp hm) e1 e2 e3 e4 e5 e6 e7 e8⟩
          · rw [if_neg h4]
            by_cases h5 : stc t = TransactionStatus.BlockLimitCheckFail
            · rw [if_pos h5]
              dsimp only
              obtain ⟨ts, sys, e1, e2, e3, e4, e5, e6, e7, e8⟩ := ih (stageInvalid acc t) hn2
              exact ⟨ts, sys, fetchSpec_skip_step t t rest _ acc (stageInvalid acc t) _ ts sys
                rfl hn1 rfl rfl (fun h hm => mem_setInsert_iff.mp hm) e1 e2 e3 e4 e5 e6 e7 e8⟩
            · rw [if_neg h5]
              by_cases h6 : t.hash ∈ avoid
              · rw [if_pos h6]
                dsimp only
                obtain ⟨ts, sys, e1, e2, e3, e4, e5, e6, e7, e8⟩ := ih acc hn2
                exact ⟨ts, sys, fetchSpec_skip_step t t rest _ acc acc _ ts sys rfl hn1 rfl rfl
                  (fun h hm => Or.inr hm) e1 e2 e3 e4 e5 e6 e7 e8⟩
              · rw [if_neg h6]
                dsimp only
                by_cases h7 : lim ≤ (emitMeta acc t).txsList.length +
                    (emitMeta acc t).sysTxsList.length
                · -- break: emit the head, leave the rest untouched
                  rw [if_pos h7]
                  dsimp only
                  by_cases hsys : t.systemTx
                  · refine ⟨[], [fetchMeta t], ?_, ?_, ?_, ?_, ?_, ?_, ?_, ?_⟩
                    · rw [emitMeta_txsList, if_pos hsys]; simp
                    · rw [emitMeta_sysTxsList, if_pos hsys]
                    · simp [sealForFetch]
                    · simp
                    · intro h hm
                      simp [fetchMeta_hash] at hm
                      simp [hm]
                    · intro h hm
                      simp [fetchMeta_hash] at hm
                      subst hm
                      refine ⟨sealForFetch t, ?_, rfl, rfl, rfl⟩
                      simp [findFirst, sealForFetch]
                    · intro h hm
                      simp [fetchMeta_hash] at hm
                      subst hm
                      rw [emitMeta_invalidTxs]
                      exact h1
                    · intro h hm
                      rw [emitMeta_invalidTxs] at hm
                      exact Or.inl hm
                  · refine ⟨[fetchMeta t], [], ?_, ?_, ?_, ?_, ?_, ?_, ?_, ?_⟩
                    · rw [emitMeta_txsList, if_neg hsys]
                    · rw [emitMeta_sysTxsList, if_neg hsys]; simp
                    · simp [sealForFetch]
                    · simp
                    · intro h hm
                      simp [fetchMeta_hash] at hm
                      simp [hm]
                    · intro h hm
                      simp [fetchMeta_hash] at hm
                      subst hm
                      refine ⟨sealForFetch t, ?_, rfl, rfl, rfl⟩
                      simp [findFirst, sealForFetch]
                    · intro h hm
                      simp [fetchMeta_hash] at hm
                      subst hm
                      rw [emitMeta_invalidTxs]
                      exact h1
                    · intro h hm
                      rw [emitMeta_invalidTxs] at hm
                      exact Or.inl hm
                · -- emit the head and continue
                  rw [if_neg h7]
                  dsimp only
                  obtain ⟨ts, sys, e1, e2, e3, e4, e5, e6, e7, e8⟩ := ih (emitMeta acc t) hn2
                  have hsub : ∀ h ∈ (ts ++ sys).map (fun m => m.hash), h ≠ t.hash := by
                    intro h hm he
                    exact hn1 (he ▸ e5 h hm)
                  have hstaged : ∀ h ∈ (fetchLoop stc now lim exp avoid avoidDup rest
                      (emitMeta acc t)).2.invalidTxs,
                      h ∈ acc.invalidTxs ∨ h ∈ rest.map (fun u => u.hash) := by
                    intro h hm
                    rcases e8 h hm with hmid | hrest
                    · rw [emitMeta_invalidTxs] at hmid
                      exact Or.inl hmid
                    · exact Or.inr hrest
                  by_cases hsys : t.systemTx
                  · refine ⟨ts, fetchMeta t :: sys, ?_, ?_, ?_, ?_, ?_, ?_, ?_, ?_⟩
                    · rw [e1, emitMeta_txsList, if_pos hsys]
                    · rw [e2, emitMeta_sysTxsList, if_pos hsys]
                      simp
                    · simp [sealForFetch, e3]
                    · -- `Nodup` with the new hash in the middle
                      simp only [List.map_append, List.map_cons]
                      rw [List.nodup_middle]
                      rw [List.nodup_cons]
                      constructor
                      · intro hm
                        rw [← List.map_append] at hm
                        exact hsub t.hash hm rfl
                      · rw [← List.map_append]
                        exact e4
                    · intro h hm
                      simp only [List.map_append, List.map_cons, List.mem_append,
                        List.mem_cons] at hm
                      simp only [List.map_cons, List.mem_cons]
                      rcases hm with hm | hm | hm
                      · exact Or.inr (e5 h (mem_map_append_left hm))
                      · exact Or.inl hm
                      · exact Or.inr (e5 h (mem_map_append_right hm))
                    · intro h hm
                      simp only [List.map_append, List.map_cons, List.mem_append,
                        List.mem_cons] at hm
                      rcases hm with hm | hm | hm
                      · have hm' : h ∈ (ts ++ sys).map (fun m => m.hash) := by
                          simp only [List.map_append, List.mem_append]
                          exact Or.inl hm
                        have hne : (sealForFetch t).hash ≠ h := fun he => hsub h hm' he.symm
                        simp only [findFirst]
                        rw [if_neg hne]
                        exact e6 h hm'
                      · rw [fetchMeta_hash] at hm
                        subst hm
                        refine ⟨sealForFetch t, ?_, rfl, rfl, rfl⟩
                        simp [findFirst, sealForFetch]
                      · have hm' : h ∈ (ts ++ sys).map (fun m => m.hash) := by
                          simp only [List.map_append, List.mem_append]
                          exact Or.inr hm
                        have hne : (sealForFetch t).hash ≠ h := fun he => hsub h hm' he.symm
                        simp only [findFirst]
                        rw [if_neg hne]
                        exact e6 h hm'
                    · intro h hm
                      simp only [List.map_append, List.map_cons, List.mem_append,
                        List.mem_cons] at hm
                      rcases hm with hm | hm | hm
                      · exact e7 h (mem_map_append_left hm)
                      · rw [fetchMeta_hash] at hm
                        subst hm
                        intro hmem
                        rcases hstaged _ hmem with hacc | hrest
                        · exact h1 hacc
                        · exact hn1 hrest
                      · exact e7 h (mem_map_append_right hm)
                    · intro h hm
                      rcases hstaged h hm with hacc | hrest
                      · exact Or.inl hacc
                      · exact Or.inr (List.mem_cons.mpr (Or.inr hrest))
                  · refine ⟨fetchMeta t :: ts, sys, ?_, ?_, ?_, ?_, ?_, ?_, ?_, ?_⟩
                    · rw [e1, emitMeta_txsList, if_neg hsys]
                      simp
                    · rw [e2, emitMeta_sysTxsList, if_neg hsys]
                    · simp [sealForFetch, e3]
                    · simp only [List.cons_append, List.map_cons]
                      rw [List.nodup_cons]
                      constructor
                      · intro hm
                        exact hsub t.hash hm rfl
                      · exact e4
                    · intro h hm
                      simp only [List.cons_append, List.map_cons, List.mem_cons] at hm
                      simp only [List.map_cons, List.mem_cons]
                      rcases hm with hm | hm
                      · exact Or.inl hm
                      · exact Or.inr (e5 h hm)
                    · intro h hm
                      simp only [List.cons_append, List.map_cons, List.mem_cons] at hm
                      rcases hm with hm | hm
                      · rw [fetchMeta_hash] at hm
                        subst hm
                        refine ⟨sealForFetch t, ?_, rfl, rfl, rfl⟩
                        simp [findFirst, sealForFetch]
                      · have hne : (sealForFetch t).hash ≠ h := fun he => hsub h hm he.symm
                        simp only [findFirst]
                        rw [if_neg hne]
                        exact e6 h hm
                    · intro h hm
                      simp only [List.cons_append, List.map_cons, List.mem_cons] at hm
                      rcases hm with hm | hm
                      · rw [fetchMeta_hash] at hm
                        subst hm
                        intro hmem
                        rcases hstaged _ hmem with hacc | hrest
                        · exact h1 hacc
                        · exact hn1 hrest
                      · exact e7 h hm
                    · intro h hm
                      rcases hstaged h hm with hacc | hrest
                      · exact Or.inl hacc
                      · exact Or.inr (List.mem_cons.mpr (Or.inr hrest))

/-- With `avoidDuplicate = true` the traversal only seals entries it emits, so
staged hashes point at unsealed entries, and the sealed counter grows by
exactly the number of emitted metadata entries. -/
theorem fetchLoop_true_spec (stc : Transaction → TransactionStatus)
    (now lim exp : Nat) (avoid : List Hash) :
    ∀ (tbl : List Transaction) (acc : FetchAcc),
      (tbl.map (fun t => t.hash)).Nodup →
      (∀ h ∈ acc.invalidTxs, ∀ u, findFirst tbl h = some u → u.sealed = false) →
      (∀ h ∈ (fetchLoop stc now lim exp avoid true tbl acc).2.invalidTxs,
        ∀ u, findFirst (fetchLoop stc now lim exp avoid true tbl acc).1 h = some u →
          u.sealed = false) ∧
      ((fetchLoop stc now lim exp avoid true tbl acc).2.sealedTxsSize +
          acc.txsList.length + acc.sysTxsList.length =
        acc.sealedTxsSize +
          (fetchLoop stc now lim exp avoid true tbl acc).2.txsList.length +
          (fetchLoop stc now lim exp avoid true tbl acc).2.sysTxsList.length) := by
  intro tbl
  induction tbl with
  | nil =>
    intro acc _ hInv
    constructor
    · intro h hm u hu
      simp only [fetchLoop, findFirst] at hu
      exact absurd hu (by simp)
    · simp [fetchLoop]
  | cons t rest ih =>
    intro acc hn hInv
    rw [List.map_cons, List.nodup_cons] at hn
    obtain ⟨hn1, hn2⟩ := hn
    have hInvRest : ∀ (accM : FetchAcc),
        (∀ h ∈ accM.invalidTxs, h = t.hash ∨ h ∈ acc.invalidTxs) →
        ∀ h ∈ accM.invalidTxs, ∀ u, findFirst rest h = some u → u.sealed = false := by
      intro accM hsub h hm u hu
      rcases hsub h hm with rfl | hacc
      · rw [findFirst_eq_none_of_not_mem hn1] at hu
        exact absurd hu (by simp)
      · by_cases hth : t.hash = h
        · rw [← hth] at hu
          rw [findFirst_eq_none_of_not_mem hn1] at hu
          exact absurd hu (by simp)
        · apply hInv h hacc u
          simp only [findFirst]
          rw [if_neg hth]
          exact hu
    unfold fetchLoop
    by_cases h1 : t.hash ∈ acc.invalidTxs
    · rw [if_pos h1]
      dsimp only
      obtain ⟨ic, icnt⟩ := ih acc hn2 (hInvRest acc (fun h hm => Or.inr hm))
      constructor
      · intro h hm u hu
        simp only [findFirst] at hu
        by_cases hh : t.hash = h
        · rw [if_pos hh] at hu
          have hts : t.sealed = false := by
            apply hInv t.hash h1 t
            simp [findFirst]
          rw [← Option.some_inj.mp hu]
          exact hts
        · rw [if_neg hh] at hu
          exact ic h hm u hu
      · exact icnt
    · rw [if_neg h1]
      by_cases h2 : true = true ∧ t.sealed = true
      · rw [if_pos h2]
        dsimp only
        obtain ⟨ic, icnt⟩ := ih acc hn2 (hInvRest acc (fun h hm => Or.inr hm))
        obtain ⟨ts0, sys0, a1, a2, a3, a4, a5, a6, a7, a8⟩ :=
          fetchLoop_spec stc now lim exp avoid true rest acc hn2
        constructor
        · intro h hm u hu
          simp only [findFirst] at hu
          by_cases hh : t.hash = h
          · -- the sealed, skipped head can never be staged
            exfalso
            rcases a8 h hm with hacc | hrest
            · rw [← hh] at hacc
              exact h1 hacc
            · rw [← hh] at hrest
              exact hn1 hrest
          · rw [if_neg hh] at hu
            exact ic h hm u hu
        · exact icnt
      · rw [if_neg h2]
        have hts : t.sealed = false := by
          rcases Bool.eq_false_or_eq_true t.sealed with htr | hf
          · exact absurd ⟨rfl, htr⟩ h2
          · exact hf
        by_cases h3 : t.importTime + exp < now
        · rw [if_pos h3]
          dsimp only
          obtain ⟨ic, icnt⟩ := ih (stageInvalid acc t) hn2
            (hInvRest (stageInvalid acc t) (fun h hm => mem_setInsert_iff.mp hm))
          constructor
          · intro h hm u hu
            simp only [findFirst] at hu
            by_cases hh : t.hash = h
            · rw [if_pos hh] at hu
              rw [← Option.some_inj.mp hu]
              exact hts
            · rw [if_neg hh] at hu
              exact ic h hm u hu
          · exact icnt
        · rw [if_neg h3]
          by_cases h4 : stc t = TransactionStatus.NonceCheckFail
          · rw [if_pos h4]
            dsimp only
            obtain ⟨ic, icnt⟩ := ih (stageInvalid acc t) hn2
              (hInvRest (stageInvalid acc t) (fun h hm => mem_setInsert_iff.mp hm))
            constructor
            · intro h hm u hu
              simp only [findFirst] at hu
              by_cases hh : (consumeCallback t).hash = h
              · rw [if_pos hh] at hu
                rw [← Option.some_inj.mp hu]
                exact hts
              · rw [if_neg hh] at hu
                exact ic h hm u hu
            · exact icnt
          · rw [if_neg h4]
            by_cases h5 : stc t = TransactionStatus.BlockLimitCheckFail
            · rw [if_pos h5]
              dsimp only
              obtain ⟨ic, icnt⟩ := ih (stageInvalid acc t) hn2
                (hInvRest (stageInvalid acc t) (fun h hm => mem_setInsert_iff.mp hm))
              constructor
              · intro h hm u hu
                simp only [findFirst] at hu
                by_cases hh : t.hash = h
                · rw [if_pos hh] at hu
                  rw [← Option.some_inj.mp hu]
                  exact hts
                · rw [if_neg hh] at hu
                  exact ic h hm u hu
              · exact icnt
            · rw [if_neg h5]
              by_cases h6 : t.hash ∈ avoid
              · rw [if_pos h6]
                dsimp only
                obtain ⟨ic, icnt⟩ := ih acc hn2 (hInvRest acc (fun h hm => Or.inr hm))
                constructor
                · intro h hm u hu
                  simp only [findFirst] at hu
                  by_cases hh : t.hash = h
                  · rw [if_pos hh] at hu
                    rw [← Option.some_inj.mp hu]
                    exact hts
                  · rw [if_neg hh] at hu
                    exact ic h hm u hu
                · exact icnt
              · rw [if_neg h6]
                dsimp only
                have hec := emitMeta_counter acc t
                rw [hts] at hec
                simp only [Bool.false_eq_true, if_false] at hec
                have hetx := emitMeta_txsList acc t
                have hesys := emitMeta_sysTxsList acc t
                by_cases h7 : lim ≤ (emitMeta acc t).txsList.length +
                    (emitMeta acc t).sysTxsList.length
                · rw [if_pos h7]
                  dsimp only
                  constructor
                  · intro h hm u hu
                    rw [emitMeta_invalidTxs] at hm
                    simp only [findFirst] at hu
                    by_cases hh : (sealForFetch t).hash = h
                    · exfalso
                      have : t.hash = h := hh
                      rw [← this] at hm
                      exact h1 hm
                    · rw [if_neg hh] at hu
                      -- the entry lives in the untouched tail of the table
                      by_cases hth : t.hash = h
                      · exact absurd hth hh
                      · apply hInv h hm u
                        simp only [findFirst]
                        rw [if_neg hth]
                        exact hu
                  · by_cases hsys : t.systemTx
                    · rw [hetx, hesys, if_pos hsys, if_pos hsys]
                      simp only [List.length_append, List.length_singleton]
                      omega
                    · rw [hetx, hesys, if_neg hsys, if_neg hsys]
                      simp only [List.length_append, List.length_singleton]
                      omega
                · rw [if_neg h7]
                  dsimp only
                  obtain ⟨ic, icnt⟩ := ih (emitMeta acc t) hn2
                    (hInvRest (emitMeta acc t)
                      (fun h hm => Or.inr (by rw [emitMeta_invalidTxs] at hm; exact hm)))
                  obtain ⟨ts0, sys0, a1, a2, a3, a4, a5, a6, a7, a8⟩ :=
                    fetchLoop_spec stc now lim exp avoid true rest (emitMeta acc t) hn2
                  constructor
                  · intro h hm u hu
                    simp only [findFirst] at hu
                    by_cases hh : (sealForFetch t).hash = h
                    · exfalso
                      have hth : t.hash = h := hh
                      rcases a8 h hm with hmid | hrest
                      · rw [emitMeta_invalidTxs] at hmid
                        rw [← hth] at hmid
                        exact h1 hmid
                      · rw [← hth] at hrest
                        exact hn1 hrest
                    · rw [if_neg hh] at hu
                      exact ic h hm u hu
                  · by_cases hsys : t.systemTx
                    · rw [hetx, hesys, if_pos hsys, if_pos hsys, hec] at icnt
                      simp only [List.length_append, List.length_singleton] at icnt
                      omega
                    · rw [hetx, hesys, if_neg hsys, if_neg hsys, hec] at icnt
                      simp only [List.length_append, List.length_singleton] at icnt
                      omega

/-! ### The invalid-drain and unseal phases -/

theorem removeInvalidLoop_keys (L : List Hash) :
    ∀ s : MemoryStorage, keysUnique s.txsTable →
      keysUnique (MemoryStorage.removeInvalidLoop s L).txsTable := by
  induction L with
  | nil => intro s hN; exact hN
  | cons h0 rest ih =>
    intro s hN
    unfold MemoryStorage.removeInvalidLoop
    exact ih _ (removeWithoutLock_keys hN)

theorem removeInvalidLoop_lookup (L : List Hash) :
    ∀ (s : MemoryStorage) (h : Hash), h ∉ L →
      findFirst (MemoryStorage.removeInvalidLoop s L).txsTable h =
        findFirst s.txsTable h := by
  induction L with
  | nil => intro s h _; rfl
  | cons h0 rest ih =>
    intro s h hm
    unfold MemoryStorage.removeInvalidLoop
    have hne : h ≠ h0 := fun he => hm (he ▸ List.mem_cons_self h0 rest)
    have hstep : findFirst (s.removeWithoutLock h0).2.txsTable h = findFirst s.txsTable h := by
      unfold MemoryStorage.removeWithoutLock
      cases hf : findFirst s.txsTable h0 with
      | none => rfl
      | some u =>
        dsimp only
        exact findFirst_eraseFirst_ne hne
    rw [ih _ h (fun hr => hm (List.mem_cons_of_mem h0 hr)), hstep]

theorem removeInvalidLoop_counter (L : List Hash) :
    ∀ s : MemoryStorage, keysUnique s.txsTable →
      (∀ h ∈ L, ∀ u, findFirst s.txsTable h = some u → u.sealed = false) →
      (MemoryStorage.removeInvalidLoop s L).sealedTxsSize = s.sealedTxsSize := by
  induction L with
  | nil => intro s _ _; rfl
  | cons h0 rest ih =>
    intro s hN hstg
    unfold MemoryStorage.removeInvalidLoop
    cases hf : findFirst s.txsTable h0 with
    | none =>
      have hstate : (s.removeWithoutLock h0).2 = s := by
        unfold MemoryStorage.removeWithoutLock
        rw [hf]
      rw [hstate]
      exact ih s hN (fun h hm => hstg h (List.mem_cons_of_mem h0 hm))
    | some u =>
      have hu : u.sealed = false := hstg h0 (List.mem_cons_self h0 rest) u hf
      have hstate : (s.removeWithoutLock h0).2 =
          { s with txsTable := eraseFirst s.txsTable h0 } := by
        unfold MemoryStorage.removeWithoutLock
        rw [hf]
        dsimp only
        rw [hu]
        simp
      rw [hstate]
      have hN2 : keysUnique ({ s with txsTable := eraseFirst s.txsTable h0 } :
          MemoryStorage).txsTable := by
        unfold keysUnique at hN ⊢
        dsimp only
        rw [map_hash_eraseFirst]
        exact hN.erase h0
      apply ih _ hN2
      intro h hm v hv
      dsimp only at hv
      by_cases hh : h = h0
      · subst hh
        rw [findFirst_eraseFirst_self hN] at hv
        exact absurd hv (by simp)
      · rw [findFirst_eraseFirst_ne hh] at hv
        exact hstg h (List.mem_cons_of_mem h0 hm) v hv

theorem removeInvalidTxs_table_lookup {s : MemoryStorage} {h : Hash}
    (hnm : h ∉ s.invalidTxs) :
    findFirst s.removeInvalidTxs.txsTable h = findFirst s.txsTable h := by
  unfold MemoryStorage.removeInvalidTxs
  by_cases he : s.invalidTxs = []
  · rw [if_pos he]
  · rw [if_neg he]
    dsimp only
    rw [notify_txsTable]
    exact removeInvalidLoop_lookup s.invalidTxs s h hnm

theorem removeInvalidTxs_keys {s : MemoryStorage} (hN : keysUnique s.txsTable) :
    keysUnique s.removeInvalidTxs.txsTable := by
  unfold MemoryStorage.removeInvalidTxs
  by_cases he : s.invalidTxs = []
  · rw [if_pos he]; exact hN
  · rw [if_neg he]
    dsimp only
    unfold keysUnique
    rw [notify_txsTable]
    exact removeInvalidLoop_keys s.invalidTxs s hN

theorem removeInvalidTxs_counter {s : MemoryStorage} (hN : keysUnique s.txsTable)
    (hs : sealedInvariant s)
    (hstg : ∀ h ∈ s.invalidTxs, ∀ u, findFirst s.txsTable h = some u → u.sealed = false) :
    s.removeInvalidTxs.sealedTxsSize = s.sealedTxsSize := by
  unfold MemoryStorage.removeInvalidTxs
  by_cases he : s.invalidTxs = []
  · rw [if_pos he]
  · rw [if_neg he]
    dsimp only
    rw [notify_of_sealedInvariant (removeInvalidLoop_inv hs)]
    exact removeInvalidLoop_counter s.invalidTxs s hN hstg

/-- `markOne` on a hash sealed under exactly `(b, bh)` with `sealFlag = false`:
the guard passes, the counter decrements and the entry is unsealed. -/
theorem markOne_false_match {b : Int} {bh : Hash} {s : MemoryStorage} {h0 : Hash}
    {t0 : Transaction} (hf : findFirst s.txsTable h0 = some t0)
    (hsl : t0.sealed = true) (hb : t0.batchId = b) (hh : t0.batchHash = bh) :
    MemoryStorage.markOne b bh false s h0 =
      { s with
        sealedTxsSize := s.sealedTxsSize - 1
        txsTable := updateFirst s.txsTable h0
          (fun u => if false = true then { u with sealed := true, batchId := b, batchHash := bh }
            else { u with sealed := false }) } := by
  unfold MemoryStorage.markOne
  rw [hf]
  dsimp only
  rw [if_neg (by simp [hb, hh])]
  rw [if_neg (by simp)]
  rw [if_pos ⟨rfl, hsl⟩]

/-- Unsealing a duplicate-free list of hashes all sealed under `(b, bh)`
decrements the counter by exactly the list length. -/
theorem batchMarkLoop_unseal_count (b : Int) (bh : Hash) (H : List Hash) :
    ∀ s : MemoryStorage, keysUnique s.txsTable → sealedInvariant s → H.Nodup →
      (∀ h ∈ H, ∃ t, findFirst s.txsTable h = some t ∧ t.sealed = true ∧
        t.batchId = b ∧ t.batchHash = bh) →
      (MemoryStorage.batchMarkLoop b bh false s H).sealedTxsSize + H.length =
        s.sealedTxsSize := by
  induction H with
  | nil => intro s _ _ _ _; simp [MemoryStorage.batchMarkLoop]
  | cons h0 rest ih =>
    intro s hN hs hnd hall
    obtain ⟨t0, hf0, hsl0, hb0, hh0⟩ := hall h0 (List.mem_cons_self h0 rest)
    have hone : 1 ≤ s.sealedTxsSize := by
      have hs' : s.sealedTxsSize = sealedCount s.txsTable := hs
      rw [hs']
      exact one_le_sealedCount_of_sealed hf0 hsl0
    obtain ⟨hnd1, hnd2⟩ := List.nodup_cons.mp hnd
    unfold MemoryStorage.batchMarkLoop
    have hms := markOne_false_match hf0 hsl0 hb0 hh0
    have hkeys : keysUnique (MemoryStorage.markOne b bh false s h0).txsTable := by
      rw [hms]
      unfold keysUnique at hN ⊢
      dsimp only
      rw [map_proj_updateFirst _ (fun u => by simp)]
      exact hN
    have hinv : sealedInvariant (MemoryStorage.markOne b bh false s h0) := markOne_inv hs
    have hcnt : (MemoryStorage.markOne b bh false s h0).sealedTxsSize =
        s.sealedTxsSize - 1 := by
      rw [hms]
    have hrest : ∀ h ∈ rest, ∃ t,
        findFirst (MemoryStorage.markOne b bh false s h0).txsTable h = some t ∧
        t.sealed = true ∧ t.batchId = b ∧ t.batchHash = bh := by
      intro h hm
      obtain ⟨t, hft, hst, hbt, hht⟩ := hall h (List.mem_cons_of_mem h0 hm)
      refine ⟨t, ?_, hst, hbt, hht⟩
      rw [hms]
      dsimp only
      rw [findFirst_updateFirst_ne (fun u => by simp)
        (fun he => hnd1 (by rw [← he]; exact hm))]
      exact hft
    have := ih _ hkeys hinv hnd2 hrest
    rw [hcnt] at this
    simp only [List.length_cons]
    omega

/-- The outputs of `batchFetchTxs` over a duplicate-free table: the final table
keeps distinct keys, the emitted hashes are distinct, and each emitted hash is
present, sealed, with `batchId = -1` and an empty `batchHash`. -/
theorem batchFetchTxs_emitted (stc : Transaction → TransactionStatus)
    (now lim : Nat) (avoid : List Hash) (avoidDup : Bool) (s : MemoryStorage)
    (hN : keysUnique s.txsTable) :
    keysUnique (s.batchFetchTxs stc now lim avoid avoidDup).state.txsTable ∧
    ((((s.batchFetchTxs stc now lim avoid avoidDup).txsList ++
      (s.batchFetchTxs stc now lim avoid avoidDup).sysTxsList).map
        (fun m => m.hash)).Nodup) ∧
    (∀ h ∈ ((s.batchFetchTxs stc now lim avoid avoidDup).txsList ++
        (s.batchFetchTxs stc now lim avoid avoidDup).sysTxsList).map (fun m => m.hash),
      ∃ u, findFirst (s.batchFetchTxs stc now lim avoid avoidDup).state.txsTable h =
        some u ∧ u.sealed = true ∧ u.batchId = -1 ∧ u.batchHash = 0) := by
  obtain ⟨ts, sys, e1, e2, e3, e4, e5, e6, e7, e8⟩ :=
    fetchLoop_spec stc now lim s.txsExpirationTime avoid avoidDup s.txsTable
      { invalidTxs := s.invalidTxs, invalidNonces := s.invalidNonces
        sealedTxsSize := s.sealedTxsSize, txsList := [], sysTxsList := [] } hN
  dsimp only at e1 e2
  rw [List.nil_append] at e1 e2
  unfold MemoryStorage.batchFetchTxs
  dsimp only
  rw [e1, e2]
  have hkeys1 : keysUnique (MemoryStorage.notifyUnsealedTxsSize
      ({ s with
        txsTable := (fetchLoop stc now lim s.txsExpirationTime avoid avoidDup s.txsTable
          { invalidTxs := s.invalidTxs, invalidNonces := s.invalidNonces
            sealedTxsSize := s.sealedTxsSize, txsList := [], sysTxsList := [] }).1
        invalidTxs := (fetchLoop stc now lim s.txsExpirationTime avoid avoidDup s.txsTable
          { invalidTxs := s.invalidTxs, invalidNonces := s.invalidNonces
            sealedTxsSize := s.sealedTxsSize, txsList := [], sysTxsList := [] }).2.invalidTxs
        invalidNonces := (fetchLoop stc now lim s.txsExpirationTime avoid avoidDup s.txsTable
          { invalidTxs := s.invalidTxs, invalidNonces := s.invalidNonces
            sealedTxsSize := s.sealedTxsSize, txsList := [], sysTxsList := [] }).2.invalidNonces
        sealedTxsSize := (fetchLoop stc now lim s.txsExpirationTime avoid avoidDup s.txsTable
          { invalidTxs := s.invalidTxs, invalidNonces := s.invalidNonces
            sealedTxsSize := s.sealedTxsSize, txsList := [], sysTxsList := [] }).2.sealedTxsSize }
        : MemoryStorage)).txsTable := by
    unfold keysUnique
    rw [notify_txsTable]
    dsimp only
    rw [e3]
    exact hN
  refine ⟨removeInvalidTxs_keys hkeys1, e4, ?_⟩
  intro h hm
  obtain ⟨u, hu, hus, hub, huh⟩ := e6 h hm
  refine ⟨u, ?_, hus, hub, huh⟩
  rw [removeInvalidTxs_table_lookup]
  · rw [notify_txsTable]
    exact hu
  · rw [notify_invalidTxs]
    exact e7 h hm

/-! ### Claims C2 and C4 -/

/-- The sealed counter right after `batchFetchTxs` with `avoidDuplicate = true`
on a clean pool: it grows by exactly the number of returned hashes. -/
theorem batchFetchTxs_counter (stc : Transaction → TransactionStatus)
    (now lim : Nat) (avoid : List Hash) (s : MemoryStorage)
    (hN : keysUnique s.txsTable) (hs : sealedInvariant s)
    (hclean : s.invalidTxs = []) :
    (s.batchFetchTxs stc now lim avoid true).state.sealedTxsSize =
      s.sealedTxsSize +
        ((((s.batchFetchTxs stc now lim avoid true).txsList ++
          (s.batchFetchTxs stc now lim avoid true).sysTxsList).map
            (fun m => m.hash)).length) := by
  have hInv0 : ∀ h ∈ s.invalidTxs, ∀ u, findFirst s.txsTable h = some u →
      u.sealed = false := by
    intro h hm
    rw [hclean] at hm
    simp at hm
  obtain ⟨hstg, hcnt⟩ := fetchLoop_true_spec stc now lim s.txsExpirationTime avoid
    s.txsTable ⟨s.invalidTxs, s.invalidNonces, s.sealedTxsSize, [], []⟩ hN hInv0
  dsimp only at hstg hcnt
  have hloopcnt := fetchLoop_count stc now lim s.txsExpirationTime avoid true s.txsTable
    ⟨s.invalidTxs, s.invalidNonces, s.sealedTxsSize, [], []⟩
  dsimp only at hloopcnt
  have hs2 : s.sealedTxsSize = sealedCount s.txsTable := hs
  unfold MemoryStorage.batchFetchTxs
  dsimp only
  set r := fetchLoop stc now lim s.txsExpirationTime avoid true s.txsTable
    ⟨s.invalidTxs, s.invalidNonces, s.sealedTxsSize, [], []⟩ with hr
  have hs1inv : sealedInvariant ({ s with
      txsTable := r.1
      invalidTxs := r.2.invalidTxs
      invalidNonces := r.2.invalidNonces
      sealedTxsSize := r.2.sealedTxsSize } : MemoryStorage) := by
    unfold sealedInvariant
    dsimp only
    omega
  rw [notify_of_sealedInvariant hs1inv]
  have hkeys1 : keysUnique ({ s with
      txsTable := r.1
      invalidTxs := r.2.invalidTxs
      invalidNonces := r.2.invalidNonces
      sealedTxsSize := r.2.sealedTxsSize } : MemoryStorage).txsTable := by
    obtain ⟨ts, sys, e1, e2, e3, e4, e5, e6, e7, e8⟩ :=
      fetchLoop_spec stc now lim s.txsExpirationTime avoid true s.txsTable
        ⟨s.invalidTxs, s.invalidNonces, s.sealedTxsSize, [], []⟩ hN
    unfold keysUnique
    dsimp only
    rw [← hr] at e3
    rw [e3]
    exact hN
  have hrem := removeInvalidTxs_counter (s := { s with
      txsTable := r.1
      invalidTxs := r.2.invalidTxs
      invalidNonces := r.2.invalidNonces
      sealedTxsSize := r.2.sealedTxsSize }) hkeys1 hs1inv
    (by
      intro h hm u hu
      dsimp only at hm hu
      exact hstg h hm u hu)
  have hproj : ({ s with txsTable := r.1, invalidTxs := r.2.invalidTxs, invalidNonces := r.2.invalidNonces, sealedTxsSize := r.2.sealedTxsSize } : MemoryStorage).sealedTxsSize = r.2.sealedTxsSize := rfl
  rw [hrem, hproj]
  simp only [List.length_map, List.length_append]
  simp only [List.length_nil] at hcnt hloopcnt
  omega

/-- C2 (amended): on a pool with distinct keys, a matching sealed counter and
no pre-staged invalid transactions, `batchFetchTxs(limit, avoidDuplicate=true)`
followed by `batchMarkTxs` on the returned hashes with `batchId = -1`,
`batchHash = HashType()` — the values the fetch assigned — and
`sealFlag = false` restores `sealedTxsSize` to its pre-fetch value.  (With any
other `(batchId, batchHash)` the unseals are skipped as stale, and with
`avoidDuplicate = false` an already-sealed returned transaction makes the
counter drop below its pre-fetch value.) -/
theorem C2_fetch_unseal_amended (stc : Transaction → TransactionStatus)
    (now lim : Nat) (avoid : List Hash) (s : MemoryStorage)
    (hN : keysUnique s.txsTable) (hs : sealedInvariant s)
    (hclean : s.invalidTxs = []) :
    (MemoryStorage.batchMarkTxs (s.batchFetchTxs stc now lim avoid true).state
      (((s.batchFetchTxs stc now lim avoid true).txsList ++
        (s.batchFetchTxs stc now lim avoid true).sysTxsList).map (fun m => m.hash))
      (-1) 0 false).sealedTxsSize = s.sealedTxsSize := by
  obtain ⟨hkeysF, hndE, hlookE⟩ := batchFetchTxs_emitted stc now lim avoid true s hN
  have hinvF : sealedInvariant (s.batchFetchTxs stc now lim avoid true).state :=
    batchFetchTxs_inv hs
  have hcntF := batchFetchTxs_counter stc now lim avoid s hN hs hclean
  unfold MemoryStorage.batchMarkTxs MemoryStorage.batchMarkTxsWithoutLock
  rw [notify_of_sealedInvariant (batchMarkLoop_inv hinvF)]
  have hmark := batchMarkLoop_unseal_count (-1) 0
    (((s.batchFetchTxs stc now lim avoid true).txsList ++
      (s.batchFetchTxs stc now lim avoid true).sysTxsList).map (fun m => m.hash))
    (s.batchFetchTxs stc now lim avoid true).state hkeysF hinvF hndE hlookE
  omega

/-- C2 counterexample, two parts.  First: one unsealed transaction, fetched
with `avoidDuplicate = true` and then unmarked with the proposal identity
`(7, 0xDE)`: the unseal is skipped as stale and `sealedTxsSize` stays `1`
instead of returning to `0`.  Second: a transaction already sealed before the
fetch, fetched with `avoidDuplicate = false` and unmarked with `(-1, 0)`: the
counter drops to `0` below its pre-fetch value `1`. -/
theorem C2_stale_unseal_counterexample :
    ((mkState [mkTx 1] 0).sealedTxsSize = 0 ∧
      (MemoryStorage.batchMarkTxs
        ((mkState [mkTx 1] 0).batchFetchTxs (fun _ => TransactionStatus.None)
          50 10 [] true).state [1] 7 222 false).sealedTxsSize = 1) ∧
    ((mkState [sealedUnder75] 1).sealedTxsSize = 1 ∧
      (MemoryStorage.batchMarkTxs
        ((mkState [sealedUnder75] 1).batchFetchTxs (fun _ => TransactionStatus.None)
          50 10 [] false).state [1] (-1) 0 false).sealedTxsSize = 0) := by
  decide

/-- C2 witness: the amended round trip at a one-transaction pool. -/
theorem C2_fetch_unseal_witness :
    (MemoryStorage.batchMarkTxs
      ((mkState [mkTx 1] 0).batchFetchTxs (fun _ => TransactionStatus.None)
        50 10 [] true).state
      ((((mkState [mkTx 1] 0).batchFetchTxs (fun _ => TransactionStatus.None)
        50 10 [] true).txsList ++
        ((mkState [mkTx 1] 0).batchFetchTxs (fun _ => TransactionStatus.None)
          50 10 [] true).sysTxsList).map (fun m => m.hash))
      (-1) 0 false).sealedTxsSize = (mkState [mkTx 1] 0).sealedTxsSize :=
  C2_fetch_unseal_amended (fun _ => TransactionStatus.None) 50 10 []
    (mkState [mkTx 1] 0) (by decide) (by decide) (by decide)

/-- C4 (amended): a sealed transaction need not carry a non-empty
`(batchId, batchHash)`: `batchFetchTxs` seals every emitted transaction with
`batchId = -1` and an empty `batchHash` for the sealer to fill in later via
`batchMarkTxs(sealFlag=true)`.  Conversely, clearing the `sealed` flag does not
clear the fields: `batchMarkTxs(sealFlag=false)` leaves every entry's
`(hash, batchId, batchHash)` untouched, and only `batchMarkAllTxs(false)`
resets them to `(-1, HashType())`. -/
theorem C4_sealed_fields_amended (stc : Transaction → TransactionStatus)
    (now lim : Nat) (avoid : List Hash) (avoidDup : Bool)
    (s s2 s3 : MemoryStorage) (H : List Hash) (b : Int) (bh : Hash)
    (hN : keysUnique s.txsTable) :
    (∀ h ∈ ((s.batchFetchTxs stc now lim avoid avoidDup).txsList ++
        (s.batchFetchTxs stc now lim avoid avoidDup).sysTxsList).map (fun m => m.hash),
      ∃ u, findFirst (s.batchFetchTxs stc now lim avoid avoidDup).state.txsTable h =
        some u ∧ u.sealed = true ∧ u.batchId = -1 ∧ u.batchHash = 0) ∧
    ((s2.batchMarkTxs H b bh false).txsTable.map
        (fun t => (t.hash, t.batchId, t.batchHash)) =
      s2.txsTable.map (fun t => (t.hash, t.batchId, t.batchHash))) ∧
    (∀ t ∈ (s3.batchMarkAllTxs false).txsTable,
      t.sealed = false ∧ t.batchId = -1 ∧ t.batchHash = 0) := by
  refine ⟨(batchFetchTxs_emitted stc now lim avoid avoidDup s hN).2.2, ?_, ?_⟩
  · unfold MemoryStorage.batchMarkTxs MemoryStorage.batchMarkTxsWithoutLock
    rw [notify_txsTable]
    exact batchMarkLoop_false_fields b bh H s2
  · intro t hm
    unfold MemoryStorage.batchMarkAllTxs at hm
    rw [notify_txsTable] at hm
    dsimp only at hm
    simp only [Bool.false_eq_true, if_false] at hm
    obtain ⟨t0, _, ht0⟩ := List.mem_map.mp hm
    rw [← ht0]
    exact ⟨rfl, rfl, rfl⟩

/-- C4 counterexample: after fetching a fresh transaction the table holds it
`sealed = true` with `batchId = -1` and `batchHash = HashType()` — a sealed
transaction with empty proposal identity, contradicting the claim. -/
theorem C4_empty_fields_counterexample :
    findFirst ((mkState [mkTx 1] 0).batchFetchTxs (fun _ => TransactionStatus.None)
      50 10 [] true).state.txsTable 1 =
      some { mkTx 1 with sealed := true, batchId := -1, batchHash := 0 } ∧
    ({ mkTx 1 with sealed := true, batchId := -1, batchHash := 0 } :
      Transaction).sealed = true ∧
    ({ mkTx 1 with sealed := true, batchId := -1, batchHash := 0 } :
      Transaction).batchHash = 0 := by
  decide

/-- C4 witness: the amended statement at concrete pools. -/
theorem C4_sealed_fields_witness :
    (∃ u, findFirst ((mkState [mkTx 1] 0).batchFetchTxs
        (fun _ => TransactionStatus.None) 50 10 [] true).state.txsTable 1 = some u ∧
      u.sealed = true ∧ u.batchId = -1 ∧ u.batchHash = 0) ∧
    (((mkState [sealedUnder75] 1).batchMarkTxs [1] 7 5 false).txsTable.map
        (fun t => (t.hash, t.batchId, t.batchHash)) =
      (mkState [sealedUnder75] 1).txsTable.map
        (fun t => (t.hash, t.batchId, t.batchHash))) ∧
    (({ sealedUnder75 with sealed := false, batchId := -1, batchHash := 0 } :
        Transaction).sealed = false ∧
      ({ sealedUnder75 with sealed := false, batchId := -1, batchHash := 0 } :
        Transaction).batchId = -1 ∧
      ({ sealedUnder75 with sealed := false, batchId := -1, batchHash := 0 } :
        Transaction).batchHash = 0) :=
  ⟨(C4_sealed_fields_amended (fun _ => TransactionStatus.None) 50 10 [] true
      (mkState [mkTx 1] 0) (mkState [sealedUnder75] 1) (mkState [sealedUnder75] 1)
      [1] 7 5 (by decide)).1 1 (by decide),
    (C4_sealed_fields_amended (fun _ => TransactionStatus.None) 50 10 [] true
      (mkState [mkTx 1] 0) (mkState [sealedUnder75] 1) (mkState [sealedUnder75] 1)
      [1] 7 5 (by decide)).2.1,
    (C4_sealed_fields_amended (fun _ => TransactionStatus.None) 50 10 [] true
      (mkState [mkTx 1] 0) (mkState [sealedUnder75] 1) (mkState [sealedUnder75] 1)
      [1] 7 5 (by decide)).2.2
      { sealedUnder75 with sealed := false, batchId := -1, batchHash := 0 }
      (by decide)⟩

/-! ### Claim C9 -/

theorem appendKnownNode_hash (p : NodeId) (t : Transaction) :
    (appendKnownNode p t).hash = t.hash := rfl

/-- Once a peer is recorded on an entry, the whole `appendKnownNode` fold keeps
it recorded. -/
theorem knownFold_mono (p : NodeId) (hashes : List Hash) :
    ∀ (tbl : List Transaction) (h : Hash) (u : Transaction),
      findFirst tbl h = some u → p ∈ u.knownNodes →
      ∃ v, findFirst
          (hashes.foldl (fun tb h2 => updateFirst tb h2 (appendKnownNode p)) tbl) h =
            some v ∧ p ∈ v.knownNodes := by
  induction hashes with
  | nil => intro tbl h u hf hp; exact ⟨u, hf, hp⟩
  | cons h2 rest ih =>
    intro tbl h u hf hp
    simp only [List.foldl_cons]
    by_cases he : h2 = h
    · subst he
      have hf2 : findFirst (updateFirst tbl h2 (appendKnownNode p)) h2 =
          some (appendKnownNode p u) :=
        findFirst_updateFirst_self hf (appendKnownNode_hash p u)
      exact ih _ h2 _ hf2 (mem_setInsert_of_mem hp)
    · have hf2 : findFirst (updateFirst tbl h2 (appendKnownNode p)) h =
          findFirst tbl h :=
        findFirst_updateFirst_ne (fun t => appendKnownNode_hash p t)
          (fun hc => he hc.symm)
      exact ih _ h u (hf2.trans hf) hp

/-- Every hash of the list that is present in the table ends up with the peer
recorded after the `appendKnownNode` fold. -/
theorem knownFold_spec (p : NodeId) (hashes : List Hash) :
    ∀ (tbl : List Transaction) (h : Hash), h ∈ hashes →
      (findFirst tbl h).isSome →
      ∃ v, findFirst
          (hashes.foldl (fun tb h2 => updateFirst tb h2 (appendKnownNode p)) tbl) h =
            some v ∧ p ∈ v.knownNodes := by
  induction hashes with
  | nil => intro tbl h hm; simp at hm
  | cons h2 rest ih =>
    intro tbl h hm hsome
    cases hf : findFirst tbl h with
    | none => rw [hf] at hsome; simp at hsome
    | some u =>
      simp only [List.foldl_cons]
      by_cases he : h2 = h
      · subst he
        have hf2 : findFirst (updateFirst tbl h2 (appendKnownNode p)) h2 =
            some (appendKnownNode p u) :=
          findFirst_updateFirst_self hf (appendKnownNode_hash p u)
        exact knownFold_mono p rest _ h2 _ hf2 (mem_setInsert_self p u.knownNodes)
      · have hm2 : h ∈ rest := by
          rcases List.mem_cons.mp hm with hh | hh
          · exact absurd hh.symm he
          · exact hh
        have hf2 : findFirst (updateFirst tbl h2 (appendKnownNode p)) h =
            findFirst tbl h :=
          findFirst_updateFirst_ne (fun t => appendKnownNode_hash p t)
            (fun hc => he hc.symm)
        apply ih _ h hm2
        rw [hf2, hf]
        rfl

/-- C9: after `filterUnknownTxs(H, p)` returns the unknown list `U`, every hash
of `H` outside `U` that resides in `txsTable` has `p` recorded in that
transaction's `knownNodes`. -/
theorem C9_filter_known (s : MemoryStorage) (hashes : List Hash) (p : NodeId)
    (h : Hash) (hm : h ∈ hashes)
    (_hknown : h ∉ (s.filterUnknownTxs hashes p).1)
    (hres : (findFirst s.txsTable h).isSome) :
    ∃ v, findFirst (s.filterUnknownTxs hashes p).2.txsTable h = some v ∧
      p ∈ v.knownNodes := by
  unfold MemoryStorage.filterUnknownTxs
  dsimp only
  exact knownFold_spec p hashes s.txsTable h hm hres

/-- C9 witness: peer 42 advertises a known and an unknown hash; the known one
records the peer. -/
theorem C9_filter_known_witness :
    (1 ∈ [1, 2] ∧ ((mkState [mkTx 1] 0).filterUnknownTxs [1, 2] 42).1 = [2]) ∧
    ∃ v, findFirst ((mkState [mkTx 1] 0).filterUnknownTxs [1, 2] 42).2.txsTable 1 =
      some v ∧ 42 ∈ v.knownNodes :=
  ⟨⟨by decide, by decide⟩,
    C9_filter_known (mkState [mkTx 1] 0) [1, 2] 42 1 (by decide) (by decide) (by decide)⟩

end Txpool
